import Mathlib

/-!
Verification of the HostNote encrypted file store (server.js).

The server is shallowly embedded: byte sequences are lists of naturals
below 256, the filesystem is an association list from directory names to
directories (association lists from file names to stored entries), and the
in-memory public-files registry is an association list from tokens to
(userId, filename) pairs.  Request handlers become pure functions from a
server state (plus the explicit random inputs the source draws from
crypto.randomBytes) to a response and a new state.

External Node primitives (PBKDF2, SHA-256, the AES-256-GCM cipher core)
are not code of this repository; they are modelled by deterministic
executable stand-ins that satisfy the library contracts the source relies
on (determinism, fixed output lengths, keystream XOR symmetry,
tag verification).  Everything layered on top of them — buffer layout,
base64 framing, key-derivation plumbing, filename validation, handler
control flow, registry bookkeeping — is translated directly from the
source.
-/

namespace HostNote

/-! ## Association lists (model of JS `Map` and of a directory listing) -/

/-- Lookup in an association list; `Map.get` / file lookup by name. -/
def alGet {α : Type} (l : List (String × α)) (k : String) : Option α :=
  match l with
  | [] => none
  | (k', v) :: t => if k' = k then some v else alGet t k

/-- Insert or replace; JS `Map.set` keeps the original position of an
existing key and appends a fresh key at the end. -/
def alSet {α : Type} (l : List (String × α)) (k : String) (v : α) :
    List (String × α) :=
  match l with
  | [] => [(k, v)]
  | (k', v') :: t => if k' = k then (k', v) :: t else (k', v') :: alSet t k v

/-- Remove every binding of a key; JS `Map.delete` (keys are unique in
reachable registries, so removing all bindings coincides with removing
the one binding). -/
def alDel {α : Type} (l : List (String × α)) (k : String) :
    List (String × α) :=
  match l with
  | [] => []
  | (k', v) :: t => if k' = k then alDel t k else (k', v) :: alDel t k

/-! ## Characters and strings -/

/-- JS `String.prototype.startsWith`, on the character sequence. -/
def strStartsWith (s pre : String) : Bool :=
  pre.toList.isPrefixOf s.toList

/-- JS `String.prototype.endsWith`, on the character sequence. -/
def strEndsWith (s suf : String) : Bool :=
  suf.toList.isSuffixOf s.toList

/-- One step of JS `String.prototype.includes`: substring search on the
character list. -/
def listInfix (pat : List Char) : List Char → Bool
  | [] => pat.isEmpty
  | c :: t => pat.isPrefixOf (c :: t) || listInfix pat t

/-- JS `String.prototype.includes`. -/
def strIncludes (s pat : String) : Bool :=
  listInfix pat.toList s.toList

/-! ## UTF-8 (model of Node's 'utf8' text codec used by the cipher) -/

/-- UTF-8 encoding of a single code point. -/
def utf8Encode (n : Nat) : List Nat :=
  if n < 128 then [n]
  else if n < 2048 then [192 + n / 64, 128 + n % 64]
  else if n < 65536 then
    [224 + n / 4096, 128 + (n / 64) % 64, 128 + n % 64]
  else
    [240 + n / 262144, 128 + (n / 4096) % 64, 128 + (n / 64) % 64,
      128 + n % 64]

/-- One step of UTF-8 decoding: the first decoded character and the
remaining bytes (`none` on empty or truncated input, which is never hit
on encoder output). -/
def utf8Step (l : List Nat) : Option (Char × List Nat) :=
  match l with
  | [] => none
  | b :: rest =>
    if b < 128 then some (Char.ofNat b, rest)
    else if b < 224 then
      match rest with
      | b2 :: r2 => some (Char.ofNat ((b - 192) * 64 + (b2 - 128)), r2)
      | [] => none
    else if b < 240 then
      match rest with
      | b2 :: b3 :: r3 =>
        some (Char.ofNat ((b - 224) * 4096 + (b2 - 128) * 64 + (b3 - 128)), r3)
      | _ => none
    else
      match rest with
      | b2 :: b3 :: b4 :: r4 =>
        some (Char.ofNat ((b - 240) * 262144 + (b2 - 128) * 4096 +
          (b3 - 128) * 64 + (b4 - 128)), r4)
      | _ => none

/-- Iterate `utf8Step`, with fuel to make the recursion structural; the
fuel is always at least the number of remaining bytes. -/
def utf8DecodeAux : Nat → List Nat → List Char
  | 0, _ => []
  | fuel + 1, l =>
    match utf8Step l with
    | none => []
    | some (c, r) => c :: utf8DecodeAux fuel r

/-- UTF-8 decoding of a byte sequence. -/
def utf8Decode (l : List Nat) : List Char := utf8DecodeAux l.length l

/-- The UTF-8 byte sequence of a string (model of `Buffer.from(s,'utf8')`). -/
def strBytes (s : String) : List Nat :=
  (s.toList.map (fun c => utf8Encode c.toNat)).flatten

/-- Decode a byte sequence back to a string (model of
`buffer.toString('utf8')`). -/
def bytesStr (l : List Nat) : String :=
  String.mk (utf8Decode l)

/-! ## Base64 (model of Buffer toString('base64') and Buffer.from(blob,'base64')) -/

/-- The standard base64 alphabet. -/
def b64Alphabet : List Char :=
  "ABCDEFGHIJKLMNOPQRSTUVWXYZabcdefghijklmnopqrstuvwxyz0123456789+/".toList

/-- The character encoding a six-bit group. -/
def sextetChar (n : Nat) : Char := b64Alphabet.getD n 'A'

/-- The six-bit group encoded by a character; `none` for characters
outside the alphabet (padding `=` included), which Node's forgiving
decoder skips. -/
def charSextet (c : Char) : Option Nat :=
  let i := b64Alphabet.indexOf c
  if i < 64 then some i else none

/-- Base64-encode a byte list, three bytes per four characters, padded
with `=`. -/
def b64EncodeChunks : List Nat → List Char
  | [] => []
  | [b1] => [sextetChar (b1 / 4), sextetChar (b1 % 4 * 16), '=', '=']
  | [b1, b2] =>
    [sextetChar (b1 / 4), sextetChar (b1 % 4 * 16 + b2 / 16),
      sextetChar (b2 % 16 * 4), '=']
  | b1 :: b2 :: b3 :: t =>
    sextetChar (b1 / 4) :: sextetChar (b1 % 4 * 16 + b2 / 16) ::
      sextetChar (b2 % 16 * 4 + b3 / 64) :: sextetChar (b3 % 64) ::
      b64EncodeChunks t

/-- Model of Buffer toString('base64'). -/
def base64encode (bytes : List Nat) : String := String.mk (b64EncodeChunks bytes)

/-- Reassemble bytes from a stream of six-bit groups (a trailing lone
group carries no full byte and is dropped, as in Node). -/
def b64DecodeSextets : List Nat → List Nat
  | [] => []
  | [_] => []
  | [s1, s2] => [s1 * 4 + s2 / 16]
  | [s1, s2, s3] => [s1 * 4 + s2 / 16, s2 % 16 * 16 + s3 / 4]
  | s1 :: s2 :: s3 :: s4 :: t =>
    (s1 * 4 + s2 / 16) :: (s2 % 16 * 16 + s3 / 4) :: (s3 % 4 * 64 + s4) ::
      b64DecodeSextets t

/-- Model of Buffer.from(s, 'base64'): characters outside the alphabet
are skipped. -/
def base64decode (s : String) : List Nat :=
  b64DecodeSextets (s.toList.filterMap charSextet)

/-! ## Constants (server.js lines 57-69) -/

def IV_LENGTH : Nat := 16

def SALT_LENGTH : Nat := 64

def TAG_LENGTH : Nat := 16

def TAG_POSITION : Nat := SALT_LENGTH + IV_LENGTH

def ENCRYPTED_POSITION : Nat := TAG_POSITION + TAG_LENGTH

/-- Maximum file size (5MB). -/
def MAX_FILE_SIZE : Nat := 5 * 1024 * 1024

/-- Maximum filename length. -/
def MAX_FILENAME_LENGTH : Nat := 255

/-! ## External crypto primitives (modelled)

`crypto.pbkdf2Sync`, `crypto.createHash('sha256')` and the AES-256-GCM
cipher core are Node built-ins, not code of this repository.  They are
modelled by deterministic executable stand-ins built from a small mixing
function: the model keeps exactly the contracts the source relies on
(fixed output lengths, determinism in all arguments, a keystream cipher
whose decryption is the same XOR, and an authentication tag that is a
function of key, nonce and ciphertext, verified before any plaintext is
released). -/

/-- Deterministic mixing function standing in for the cryptographic
cores of the modelled primitives. -/
def mixHash (data : List Nat) (seed : Nat) : Nat :=
  data.foldl (fun acc b => (acc * 131 + b + 1) % 1000000007) (seed + 7)

/-- Model of `crypto.pbkdf2Sync(password, salt, iterations, keylen, 'sha512')`:
`keylen` bytes, deterministic in every argument. -/
def pbkdf2Sync (password salt : List Nat) (iterations keylen : Nat) :
    List Nat :=
  (List.range keylen).map
    (fun i => mixHash (password ++ 0 :: salt) (iterations + i) % 256)

/-- Model of the AES-256-CTR keystream inside GCM: `n` bytes determined
by key and nonce. -/
def keystream (key iv : List Nat) (n : Nat) : List Nat :=
  (List.range n).map (fun i => mixHash (key ++ 1 :: iv) i % 256)

/-- GCM encryption body: plaintext XOR keystream. -/
def gcmEncryptBytes (key iv pt : List Nat) : List Nat :=
  List.zipWith Nat.xor pt (keystream key iv pt.length)

/-- GCM decryption body: ciphertext XOR the same keystream. -/
def gcmDecryptBytes (key iv ct : List Nat) : List Nat :=
  List.zipWith Nat.xor ct (keystream key iv ct.length)

/-- Model of `cipher.getAuthTag()`: 16 bytes determined by key, nonce and
ciphertext. -/
def gcmTag (key iv ct : List Nat) : List Nat :=
  (List.range TAG_LENGTH).map (fun i => mixHash (key ++ 2 :: iv ++ 3 :: ct) i % 256)

/-! ## Key derivation and content cipher (server.js lines 164-205) -/

/-- Derive a per-user encryption key from master key + user ID
(`getUserEncryptionKey`).  The process-wide `ENCRYPTION_KEY` environment
value is passed explicitly as `ek`. -/
def getUserEncryptionKey (ek : String) (userId : String) : List Nat :=
  pbkdf2Sync (strBytes ek) (strBytes ("user:" ++ userId)) 100000 32

/-- Derive a key from the user's encryption key and salt (`getKey`). -/
def getKey (userKey salt : List Nat) : List Nat :=
  pbkdf2Sync userKey salt 100000 32

/-- Encrypt content with user-specific key (`encrypt`).  The two
`crypto.randomBytes` draws are passed explicitly: `salt` (64 bytes) and
`iv` (16 bytes). -/
def encrypt (ek : String) (text userId : String) (salt iv : List Nat) :
    String :=
  let userKey := getUserEncryptionKey ek userId
  let key := getKey userKey salt
  let encrypted := gcmEncryptBytes key iv (strBytes text)
  let tag := gcmTag key iv encrypted
  base64encode (salt ++ iv ++ tag ++ encrypted)

/-- Decrypt content with user-specific key (`decrypt`).  `none` models
the `decipher.final()` authentication failure (or an invalid
nonce/tag shape), which the source surfaces as a thrown error. -/
def decrypt (ek : String) (encryptedData userId : String) : Option String :=
  let userKey := getUserEncryptionKey ek userId
  let buffer := base64decode encryptedData
  let salt := buffer.take SALT_LENGTH
  let iv := (buffer.drop SALT_LENGTH).take IV_LENGTH
  let tag := (buffer.drop TAG_POSITION).take TAG_LENGTH
  let encrypted := buffer.drop ENCRYPTED_POSITION
  let key := getKey userKey salt
  if gcmTag key iv encrypted = tag then
    some (bytesStr (gcmDecryptBytes key iv encrypted))
  else
    none

/-! ## Filename validation (server.js lines 66-80) -/

/-- Model of the test of `FILENAME_REGEX`, the anchored pattern
requiring an alphanumeric first character followed by alphanumerics,
dots, underscores and dashes. -/
def matchesFilenameRegex (s : String) : Bool :=
  match s.toList with
  | [] => false
  | c :: rest =>
    (c.isAlpha || c.isDigit) &&
      rest.all (fun d => d.isAlpha || d.isDigit || d == '.' || d == '_' ||
        d == '-')

/-- Validate filename for security (`isValidFilename`).  The JS
`typeof` guard is vacuous for a string argument; `!filename` rejects
exactly the empty string. -/
def isValidFilename (filename : String) : Bool :=
  if filename == "" then false
  else if MAX_FILENAME_LENGTH < filename.length then false
  else if strIncludes filename ".." || strIncludes filename "/" ||
      strIncludes filename "\\" then false
  else if !(matchesFilenameRegex filename) then false
  else if strStartsWith filename "." || filename == "." || filename == ".."
    then false
  else true

/-! ## Stored entries, metadata and the filesystem -/

/-- The sidecar record (`{isPublic, publicId, userId}`); `userId` is
absent until a share first writes it. -/
structure Metadata where
  isPublic : Bool
  publicId : Option String
  userId : Option String
deriving DecidableEq

/-- The default returned by `getFileMetadata` when the sidecar is
missing or unreadable. -/
def defaultMetadata : Metadata :=
  { isPublic := false, publicId := none, userId := none }

/-- JSON text `JSON.stringify` produces for a metadata record (keys in
insertion order; `userId` present only once set). -/
def stringifyMeta (m : Metadata) : String :=
  "\x7b\"isPublic\":" ++ (if m.isPublic then "true" else "false") ++
    ",\"publicId\":" ++
    (match m.publicId with
      | none => "null"
      | some p => "\"" ++ p ++ "\"") ++
    (match m.userId with
      | none => ""
      | some u => ",\"userId\":\"" ++ u ++ "\"") ++ "\x7d"

/-- A file stored on disk.  The byte string of a sidecar is abstracted
by its parse status: `meta m` is a record as serialized by
`saveFileMetadata`, `corrupt s` is a byte string `JSON.parse` rejects,
`blob s` is an ordinary content file, and `subdir` stands for a
directory entry (`stat().isFile()` false). -/
inductive Entry where
  | blob (s : String)
  | meta (m : Metadata)
  | corrupt (s : String)
  | subdir
deriving DecidableEq

/-- The byte string of an entry as `fs.readFile(path, 'utf-8')` returns
it (a directory read throws in Node; the empty string stands in, and
every consumer treats it as the same failure). -/
def entryToString : Entry → String
  | Entry.blob s => s
  | Entry.meta m => stringifyMeta m
  | Entry.corrupt s => s
  | Entry.subdir => ""

/-- `JSON.parse` of an entry, as used on sidecars: `none` models a
thrown parse error (or an unreadable file). -/
def parseEntry : Entry → Option Metadata
  | Entry.meta m => some m
  | _ => none

/-- One namespace directory: file name to entry. -/
abbrev Dir := List (String × Entry)

/-- The data root: namespace directory name to directory.  The constant
`DATA_DIR` path prefix is omitted; directories are keyed by namespace
name. -/
abbrev Fs := List (String × Dir)

/-- The in-memory public files registry: publicId to (userId, filename). -/
abbrev Registry := List (String × (String × String))

/-- The whole server state the handlers touch. -/
structure ServerState where
  fs : Fs
  registry : Registry

/-- Read a file (`fs.readFile`): `none` when directory or file is
absent. -/
def getFile (fs : Fs) (d n : String) : Option Entry :=
  match alGet fs d with
  | some dir => alGet dir n
  | none => none

/-- Write a file (`fs.writeFile` after `fs.mkdir(recursive)` where the
handlers do so): creates the directory if missing. -/
def setFile (fs : Fs) (d n : String) (e : Entry) : Fs :=
  match alGet fs d with
  | some dir => alSet fs d (alSet dir n e)
  | none => alSet fs d [(n, e)]

/-- Remove a file (`fs.unlink` on an existing file; no-op when absent —
callers check or swallow the thrown error explicitly). -/
def delFile (fs : Fs) (d n : String) : Fs :=
  match alGet fs d with
  | some dir => alSet fs d (alDel dir n)
  | none => fs

/-! ## Namespaces and metadata plumbing (server.js lines 100-133) -/

/-- A lowercase hex digit. -/
def hexChar (n : Nat) : Char :=
  if n < 10 then Char.ofNat (48 + n) else Char.ofNat (87 + n)

/-- Model of `crypto.createHash('sha256').update(userId).digest('hex')`
truncated to 16 characters: a deterministic stand-in for the external
hash primitive. -/
def sha256Hex16 (s : String) : String :=
  String.mk ((List.range 16).map (fun i => hexChar (mixHash (strBytes s) (4 + i) % 16)))

/-- Get user-specific directory path (`getUserDataDir`), relative to the
data root. -/
def getUserDataDir (userId : String) : String := sha256Hex16 userId

/-- The sidecar file name `.${filename}.meta.json` used by
`getMetadataPath`, relative to the user's directory. -/
def metadataName (filename : String) : String :=
  String.mk ('.' :: (filename.toList ++ ".meta.json".toList))

/-- Read file metadata (`getFileMetadata`): default on any read or parse
failure. -/
def getFileMetadata (fs : Fs) (userId filename : String) : Metadata :=
  match getFile fs (getUserDataDir userId) (metadataName filename) with
  | some e =>
    match parseEntry e with
    | some m => m
    | none => defaultMetadata
  | none => defaultMetadata

/-- Save file metadata (`saveFileMetadata`). -/
def saveFileMetadata (fs : Fs) (userId filename : String) (m : Metadata) : Fs :=
  setFile fs (getUserDataDir userId) (metadataName filename) (Entry.meta m)

/-- JS truthiness of a string-or-null value (`null` and the empty string
are falsy). -/
def truthyStr : Option String → Bool
  | none => false
  | some s => !(s == "")

/-- The `/^[a-f0-9]\x7b32\x7d$/` check on a public id. -/
def isHex32 (s : String) : Bool :=
  s.length == 32 &&
    s.toList.all (fun c => c.isDigit || ('a' ≤ c && c ≤ 'f'))

/-! ## Request handlers (server.js lines 271-582) -/

/-- The responses the modelled handlers produce, by HTTP status. -/
inductive HRes where
  | ok
  | okContent (name content : String)
  | okShare (publicId : String)
  | badRequest
  | notFound
  | conflict
  | serverError
deriving DecidableEq

/-- GET `/api/files/:filename` (read a file).  Any throw inside the
handler — missing file as well as failed decryption — is answered by the
single catch with 404 `File not found`. -/
def readFileH (ek : String) (st : ServerState) (userId filename : String) :
    HRes :=
  if !(isValidFilename filename) then HRes.badRequest
  else
    match getFile st.fs (getUserDataDir userId) filename with
    | none => HRes.notFound
    | some e =>
      match decrypt ek (entryToString e) userId with
      | some content => HRes.okContent filename content
      | none => HRes.notFound

/-- DELETE `/api/files/:filename`.  The registry entry is removed before
`fs.unlink`; a missing content file makes `fs.unlink` throw, which the
catch answers with 500 (the registry removal has already happened); a
missing sidecar is swallowed by the inner try. -/
def deleteFileH (st : ServerState) (userId filename : String) :
    HRes × ServerState :=
  if !(isValidFilename filename) then (HRes.badRequest, st)
  else
    let d := getUserDataDir userId
    let metadata := getFileMetadata st.fs userId filename
    let registry :=
      if metadata.isPublic && truthyStr metadata.publicId then
        alDel st.registry (metadata.publicId.getD "")
      else st.registry
    match getFile st.fs d filename with
    | none => (HRes.serverError, { fs := st.fs, registry := registry })
    | some _ =>
      let fs1 := delFile st.fs d filename
      let fs2 := delFile fs1 d (metadataName filename)
      (HRes.ok, { fs := fs2, registry := registry })

/-- PUT `/api/files/:filename/rename`.  Conflict when the target exists;
a missing source makes `fs.rename` throw (500); the registry is updated
from the sidecar read before the sidecar itself is moved, and a missing
sidecar is swallowed. -/
def renameH (st : ServerState) (userId oldFilename newName : String) :
    HRes × ServerState :=
  if !(isValidFilename oldFilename && isValidFilename newName) then
    (HRes.badRequest, st)
  else
    let d := getUserDataDir userId
    match getFile st.fs d newName with
    | some _ => (HRes.conflict, st)
    | none =>
      match getFile st.fs d oldFilename with
      | none => (HRes.serverError, st)
      | some content =>
        let fs1 := setFile (delFile st.fs d oldFilename) d newName content
        let metadata := getFileMetadata fs1 userId oldFilename
        let registry :=
          if metadata.isPublic && truthyStr metadata.publicId then
            alSet st.registry (metadata.publicId.getD "") (userId, newName)
          else st.registry
        let fs2 :=
          match getFile fs1 d (metadataName oldFilename) with
          | some me =>
            setFile (delFile fs1 d (metadataName oldFilename)) d
              (metadataName newName) me
          | none => fs1
        (HRes.ok, { fs := fs2, registry := registry })

/-- POST `/api/files/:filename/share`.  The `crypto.randomBytes` draw
behind `generatePublicId()` is passed explicitly as `freshId`. -/
def shareH (st : ServerState) (userId filename freshId : String) :
    HRes × ServerState :=
  if !(isValidFilename filename) then (HRes.badRequest, st)
  else
    match getFile st.fs (getUserDataDir userId) filename with
    | none => (HRes.notFound, st)
    | some _ =>
      let metadata := getFileMetadata st.fs userId filename
      if metadata.isPublic && truthyStr metadata.publicId then
        (HRes.okShare (metadata.publicId.getD ""), st)
      else
        let m : Metadata :=
          { isPublic := true, publicId := some freshId, userId := some userId }
        (HRes.okShare freshId,
          { fs := saveFileMetadata st.fs userId filename m,
            registry := alSet st.registry freshId (userId, filename) })

/-- POST `/api/files/:filename/unshare`. -/
def unshareH (st : ServerState) (userId filename : String) :
    HRes × ServerState :=
  if !(isValidFilename filename) then (HRes.badRequest, st)
  else
    match getFile st.fs (getUserDataDir userId) filename with
    | none => (HRes.notFound, st)
    | some _ =>
      let metadata := getFileMetadata st.fs userId filename
      let registry :=
        if metadata.isPublic && truthyStr metadata.publicId then
          alDel st.registry (metadata.publicId.getD "")
        else st.registry
      let m := { metadata with isPublic := false, publicId := none }
      (HRes.ok,
        { fs := saveFileMetadata st.fs userId filename m, registry := registry })

/-- The registry lookup of GET `/api/public/:publicId` (the
`resolvePublic` operation): format check, then pure in-memory lookup. -/
def resolvePublic (st : ServerState) (publicId : String) :
    Option (String × String) :=
  if !(isHex32 publicId) then none
  else alGet st.registry publicId

/-- One row of the GET `/api/files` response (`modified` is untracked in
the model, which has no clock). -/
structure FileEntry where
  name : String
  size : Nat
  isPublic : Bool
  publicId : Option String
deriving DecidableEq

/-- Is a directory entry name skipped by the listing
(`name.startsWith('.') && name.endsWith('.meta.json')`)? -/
def isSidecarName (name : String) : Bool :=
  strStartsWith name "." && strEndsWith name ".meta.json"

/-- GET `/api/files` (list files).  `statFails` injects `fs.stat`
failures: the source stats every non-skipped name inside a
`Promise.all`, so one failure rejects the whole thing and the catch
answers `res.json([])` — the same body an empty namespace produces.
(The `mkdir` side effect and the untracked `mtime` are omitted.) -/
def listH (st : ServerState) (userId : String) (statFails : String → Bool) :
    List FileEntry :=
  let dir := (alGet st.fs (getUserDataDir userId)).getD []
  if dir.any (fun p => !(isSidecarName p.1) && statFails p.1) then []
  else
    dir.filterMap (fun p =>
      if isSidecarName p.1 then none
      else
        match p.2 with
        | Entry.subdir => none
        | e =>
          let metadata := getFileMetadata st.fs userId p.1
          some { name := p.1, size := (entryToString e).length,
                 isPublic := metadata.isPublic,
                 publicId := metadata.publicId })

/-! ## Registry rebuild at startup (server.js lines 138-162) -/

/-- JS `file.slice(1, -10)`: drop the leading dot and the `.meta.json`
suffix of a sidecar name. -/
def sliceName (file : String) : String :=
  String.mk ((file.toList.drop 1).take (file.toList.length - 11))

/-- Scan one namespace directory in order.  The Bool is false when a
sidecar failed to read or parse: the thrown error propagates out of both
`for` loops into the single catch, so the caller must stop scanning. -/
def loadDirR : Dir → Registry → Registry × Bool
  | [], reg => (reg, true)
  | (name, e) :: t, reg =>
    if strEndsWith name ".meta.json" then
      match parseEntry e with
      | none => (reg, false)
      | some m =>
        if m.isPublic && truthyStr m.publicId then
          loadDirR t
            (alSet reg (m.publicId.getD "") (m.userId.getD "", sliceName name))
        else loadDirR t reg
    else loadDirR t reg

/-- Scan the namespace directories in order, stopping at the first
failed sidecar. -/
def loadFsR : Fs → Registry → Registry
  | [], reg => reg
  | (_, dir) :: t, reg =>
    match loadDirR dir reg with
    | (reg1, true) => loadFsR t reg1
    | (reg1, false) => reg1

/-- Load public files registry on startup (`loadPublicFilesRegistry`):
whatever was inserted before a failure is kept, the error is only
logged. -/
def loadPublicFilesRegistry (fs : Fs) : Registry := loadFsR fs []

/-- Every sidecar of the directory reads and parses. -/
def sidecarsParseable (l : Dir) : Bool :=
  l.all (fun p => !(strEndsWith p.1 ".meta.json") || (parseEntry p.2).isSome)

/-- No sidecar reached by the scan of this directory (it stops at the
first unparseable one) carries the public token `pid`. -/
def noTokenBefore : Dir → String → Bool
  | [], _ => true
  | (name, e) :: t, pid =>
    if strEndsWith name ".meta.json" then
      match parseEntry e with
      | none => true
      | some m =>
        (!(m.isPublic && truthyStr m.publicId) ||
          !(m.publicId.getD "" == pid)) && noTokenBefore t pid
    else noTokenBefore t pid

/-- No sidecar reached by the scan of these directories carries the
public token `pid`. -/
def noTokenFs : Fs → String → Bool
  | [], _ => true
  | (_, dir) :: t, pid =>
    noTokenBefore dir pid && (!(sidecarsParseable dir) || noTokenFs t pid)

/-! ## Mutation order of unshare, as an effect trace -/

/-- One state mutation a handler performs, in program order. -/
inductive Effect where
  | registryDelete (publicId : String)
  | registrySet (publicId : String) (v : String × String)
  | fsWrite (d n : String) (e : Entry)
  | fsDelete (d n : String)
deriving DecidableEq

/-- Apply one effect to the state. -/
def applyEffect (st : ServerState) : Effect → ServerState
  | Effect.registryDelete pid =>
    { st with registry := alDel st.registry pid }
  | Effect.registrySet pid v => { st with registry := alSet st.registry pid v }
  | Effect.fsWrite d n e => { st with fs := setFile st.fs d n e }
  | Effect.fsDelete d n => { st with fs := delFile st.fs d n }

/-- Apply a trace of effects in order. -/
def applyEffects (st : ServerState) (l : List Effect) : ServerState :=
  l.foldl applyEffect st

/-- The mutations of POST `/api/files/:filename/unshare` in the order
the source performs them: `publicFilesRegistry.delete(...)` on line 530
strictly before `saveFileMetadata(...)` on line 536. -/
def unshareEffects (st : ServerState) (userId filename : String) :
    List Effect :=
  if !(isValidFilename filename) then []
  else
    match getFile st.fs (getUserDataDir userId) filename with
    | none => []
    | some _ =>
      let metadata := getFileMetadata st.fs userId filename
      (if metadata.isPublic && truthyStr metadata.publicId then
        [Effect.registryDelete (metadata.publicId.getD "")]
      else []) ++
        [Effect.fsWrite (getUserDataDir userId) (metadataName filename)
          (Entry.meta { metadata with isPublic := false, publicId := none })]

/-! ## Example states for concrete runs -/

/-- A well-formed 32-hex-char public token. -/
def pid0 : String := "0123456789abcdef0123456789abcdef"

/-- A public metadata record for alice's notes.md. -/
def metaPub : Metadata :=
  { isPublic := true, publicId := some pid0, userId := some "alice" }

/-- A store holding one file whose blob is not a well-formed ciphertext
(tampered store). -/
def stC2 : ServerState :=
  { fs := [(getUserDataDir "alice", [("notes.md", Entry.blob "garbage")])],
    registry := [] }

/-- The empty store. -/
def emptyState : ServerState := { fs := [], registry := [] }

/-- A store with one private file and no sidecar. -/
def stPriv : ServerState :=
  { fs := [(getUserDataDir "alice", [("notes.md", Entry.blob "blob0")])],
    registry := [] }

/-- A store with one shared file, its sidecar, and the matching registry
entry. -/
def stPub : ServerState :=
  { fs := [(getUserDataDir "alice",
      [("notes.md", Entry.blob "blob0"),
        (metadataName "notes.md", Entry.meta metaPub)])],
    registry := [(pid0, ("alice", "notes.md"))] }

/-- Claim C8 counterexample: a store holding a corrupt sidecar followed
by a valid public record; the rebuild aborts at the corrupt record, the
registry stays empty, and the shared file's token does not resolve. -/
def fsC8 : Fs :=
  [(getUserDataDir "alice",
    [(metadataName "a.md", Entry.corrupt "corrupt"),
      (metadataName "b.md", Entry.meta metaPub)])]

theorem alGet_set_self {α : Type} (l : List (String × α)) (k : String) (v : α) :
    alGet (alSet l k v) k = some v := by
  induction l with
  | nil => simp [alGet, alSet]
  | cons p t ih =>
    obtain ⟨k', v'⟩ := p
    by_cases h : k' = k
    · simp [alGet, alSet, h]
    · simp [alGet, alSet, h, ih]

theorem alGet_set_ne {α : Type} (l : List (String × α)) (k k' : String) (v : α)
    (h : k' ≠ k) : alGet (alSet l k v) k' = alGet l k' := by
  have hk : k ≠ k' := Ne.symm h
  induction l with
  | nil => simp [alGet, alSet, hk]
  | cons p t ih =>
    obtain ⟨k₀, v₀⟩ := p
    by_cases h0 : k₀ = k
    · subst h0
      simp [alGet, alSet, hk]
    · by_cases h1 : k₀ = k'
      · simp [alGet, alSet, h0, h1, h]
      · simp [alGet, alSet, h0, h1, ih]

theorem alGet_del_self {α : Type} (l : List (String × α)) (k : String) :
    alGet (alDel l k) k = none := by
  induction l with
  | nil => simp [alGet, alDel]
  | cons p t ih =>
    obtain ⟨k₀, v₀⟩ := p
    by_cases h : k₀ = k
    · simpa [alDel, h] using ih
    · simpa [alDel, alGet, h] using ih

theorem alGet_del_ne {α : Type} (l : List (String × α)) (k k' : String)
    (h : k' ≠ k) : alGet (alDel l k) k' = alGet l k' := by
  induction l with
  | nil => simp [alGet, alDel]
  | cons p t ih =>
    obtain ⟨k₀, v₀⟩ := p
    by_cases h0 : k₀ = k
    · have hk2 : k ≠ k' := Ne.symm h
      simp [alDel, alGet, h0, hk2, ih]
    · by_cases h1 : k₀ = k'
      · simp [alDel, alGet, h0, h1, h]
      · simpa [alDel, alGet, h0, h1] using ih

theorem char_toNat_lt (c : Char) : c.toNat < 1114112 := by
  rcases c.valid with h | h
  · exact Nat.lt_trans h (by norm_num)
  · exact h.2

theorem utf8Encode_lt (n : Nat) (h : n < 1114112) :
    ∀ b ∈ utf8Encode n, b < 256 := by
  intro b hb
  unfold utf8Encode at hb
  split at hb
  · rename_i h1
    simp only [List.mem_singleton] at hb
    omega
  · split at hb
    · rename_i h1 h2
      simp only [List.mem_cons, List.not_mem_nil, or_false] at hb
      have q1 : n / 64 < 32 := by omega
      have q2 : n % 64 < 64 := Nat.mod_lt _ (by omega)
      rcases hb with hb | hb <;> omega
    · split at hb
      · rename_i h1 h2 h3
        simp only [List.mem_cons, List.not_mem_nil, or_false] at hb
        have q1 : n / 4096 < 16 := by omega
        have q2 : (n / 64) % 64 < 64 := Nat.mod_lt _ (by omega)
        have q3 : n % 64 < 64 := Nat.mod_lt _ (by omega)
        rcases hb with hb | hb | hb <;> omega
      · rename_i h1 h2 h3
        simp only [List.mem_cons, List.not_mem_nil, or_false] at hb
        have q1 : n / 262144 < 5 := by omega
        have q2 : (n / 4096) % 64 < 64 := Nat.mod_lt _ (by omega)
        have q3 : (n / 64) % 64 < 64 := Nat.mod_lt _ (by omega)
        have q4 : n % 64 < 64 := Nat.mod_lt _ (by omega)
        rcases hb with hb | hb | hb | hb <;> omega

theorem utf8Step_length (l : List Nat) (c : Char) (r : List Nat)
    (h : utf8Step l = some (c, r)) : r.length < l.length := by
  match l with
  | [] => simp [utf8Step] at h
  | b :: rest =>
    simp only [utf8Step] at h
    split at h
    · simp at h
      obtain ⟨-, rfl⟩ := h
      simp
    · split at h
      · match rest with
        | [] => simp at h
        | b2 :: r2 =>
          simp at h
          obtain ⟨-, rfl⟩ := h
          simp
          omega
      · split at h
        · match rest with
          | [] => simp at h
          | [b2] => simp at h
          | b2 :: b3 :: r3 =>
            simp at h
            obtain ⟨-, rfl⟩ := h
            simp
            omega
        · match rest with
          | [] => simp at h
          | [b2] => simp at h
          | [b2, b3] => simp at h
          | b2 :: b3 :: b4 :: r4 =>
            simp at h
            obtain ⟨-, rfl⟩ := h
            simp
            omega

theorem utf8DecodeAux_eq (f1 : Nat) :
    ∀ (f2 : Nat) (l : List Nat), l.length ≤ f1 → l.length ≤ f2 →
      utf8DecodeAux f1 l = utf8DecodeAux f2 l := by
  induction f1 using Nat.strong_induction_on with
  | _ f1 ih =>
    intro f2 l h1 h2
    match f1, h1 with
    | 0, h1 =>
      have : l = [] := List.eq_nil_of_length_eq_zero (Nat.le_zero.mp h1)
      subst this
      match f2 with
      | 0 => rfl
      | f2 + 1 => simp [utf8DecodeAux, utf8Step]
    | k + 1, h1 =>
      match f2, h2 with
      | 0, h2 =>
        have : l = [] := List.eq_nil_of_length_eq_zero (Nat.le_zero.mp h2)
        subst this
        simp [utf8DecodeAux, utf8Step]
      | m + 1, h2 =>
        simp only [utf8DecodeAux]
        cases hs : utf8Step l with
        | none => simp
        | some cr =>
          obtain ⟨c, r⟩ := cr
          have hlen := utf8Step_length _ _ _ hs
          dsimp only
          congr 1
          exact ih k (Nat.lt_succ_self _) m r (by omega) (by omega)

theorem utf8Decode_step (l : List Nat) :
    utf8Decode l = match utf8Step l with
      | none => []
      | some (c, r) => c :: utf8Decode r := by
  unfold utf8Decode
  match l with
  | [] => simp [utf8DecodeAux, utf8Step]
  | b :: rest =>
    simp only [List.length_cons, utf8DecodeAux]
    cases hs : utf8Step (b :: rest) with
    | none => simp
    | some cr =>
      obtain ⟨c, r⟩ := cr
      have hlen := utf8Step_length _ _ _ hs
      simp only [List.length_cons] at hlen
      dsimp only
      congr 1
      exact utf8DecodeAux_eq rest.length r.length r (by omega) le_rfl

theorem utf8Step_encode (n : Nat) (h : n < 1114112) (rest : List Nat) :
    utf8Step (utf8Encode n ++ rest) = some (Char.ofNat n, rest) := by
  unfold utf8Encode
  split
  · rename_i h1
    simp only [List.cons_append, List.nil_append, utf8Step, if_pos h1]
  · split
    · rename_i h1 h2
      have e1 : ¬ (192 + n / 64 < 128) := by omega
      have e2 : 192 + n / 64 < 224 := by omega
      simp only [List.cons_append, List.nil_append, utf8Step, if_neg e1,
        if_pos e2]
      have e3 : (192 + n / 64 - 192) * 64 + (128 + n % 64 - 128) = n := by
        omega
      rw [e3]
    · split
      · rename_i h1 h2 h3
        have e1 : ¬ (224 + n / 4096 < 128) := by omega
        have e2 : ¬ (224 + n / 4096 < 224) := by omega
        have e3 : 224 + n / 4096 < 240 := by omega
        simp only [List.cons_append, List.nil_append, utf8Step, if_neg e1,
          if_neg e2, if_pos e3]
        have e4 : (224 + n / 4096 - 224) * 4096 + (128 + (n / 64) % 64 - 128) *
            64 + (128 + n % 64 - 128) = n := by omega
        rw [e4]
      · rename_i h1 h2 h3
        have e1 : ¬ (240 + n / 262144 < 128) := by omega
        have e2 : ¬ (240 + n / 262144 < 224) := by omega
        have e3 : ¬ (240 + n / 262144 < 240) := by omega
        simp only [List.cons_append, List.nil_append, utf8Step, if_neg e1,
          if_neg e2, if_neg e3]
        have e4 : (240 + n / 262144 - 240) * 262144 +
            (128 + (n / 4096) % 64 - 128) * 4096 +
            (128 + (n / 64) % 64 - 128) * 64 + (128 + n % 64 - 128) = n := by
          omega
        rw [e4]

theorem utf8Decode_encode (n : Nat) (h : n < 1114112) (rest : List Nat) :
    utf8Decode (utf8Encode n ++ rest) = Char.ofNat n :: utf8Decode rest := by
  rw [utf8Decode_step, utf8Step_encode n h rest]

theorem utf8Decode_strBytes (s : String) : utf8Decode (strBytes s) = s.toList := by
  show utf8Decode ((s.toList.map (fun c => utf8Encode c.toNat)).flatten) = s.toList
  induction s.toList with
  | nil => simp [utf8Decode, utf8DecodeAux]
  | cons c t ih =>
    simp only [List.map_cons, List.flatten_cons]
    rw [utf8Decode_encode c.toNat (char_toNat_lt c), ih, Char.ofNat_toNat]

theorem bytesStr_strBytes (s : String) : bytesStr (strBytes s) = s := by
  show String.mk (utf8Decode (strBytes s)) = s
  rw [utf8Decode_strBytes]
  rfl

theorem strBytes_lt (s : String) : ∀ b ∈ strBytes s, b < 256 := by
  intro b hb
  unfold strBytes at hb
  rw [List.mem_flatten] at hb
  obtain ⟨l, hl, hbl⟩ := hb
  rw [List.mem_map] at hl
  obtain ⟨c, _, rfl⟩ := hl
  exact utf8Encode_lt c.toNat (char_toNat_lt c) b hbl

theorem charSextet_sextetChar : ∀ n, n < 64 → charSextet (sextetChar n) = some n := by
  decide

theorem charSextet_pad : charSextet '=' = none := by decide

theorem base64_roundtrip_aux (n : Nat) :
    ∀ (l : List Nat), l.length ≤ n → (∀ x ∈ l, x < 256) →
      b64DecodeSextets (List.filterMap charSextet (b64EncodeChunks l)) = l := by
  induction n using Nat.strong_induction_on with
  | _ n ih =>
    intro l hlen hlt
    match l with
    | [] => simp [b64EncodeChunks, b64DecodeSextets]
    | [b1] =>
      have h1 : b1 < 256 := hlt b1 (by simp)
      simp only [b64EncodeChunks, List.filterMap_cons,
        charSextet_sextetChar (b1 / 4) (by omega),
        charSextet_sextetChar (b1 % 4 * 16) (by omega), charSextet_pad,
        List.filterMap_nil]
      simp only [b64DecodeSextets]
      congr 1
      omega
    | [b1, b2] =>
      have h1 : b1 < 256 := hlt b1 (by simp)
      have h2 : b2 < 256 := hlt b2 (by simp)
      simp only [b64EncodeChunks, List.filterMap_cons,
        charSextet_sextetChar (b1 / 4) (by omega),
        charSextet_sextetChar (b1 % 4 * 16 + b2 / 16) (by omega),
        charSextet_sextetChar (b2 % 16 * 4) (by omega), charSextet_pad,
        List.filterMap_nil]
      simp only [b64DecodeSextets]
      have e1 : b1 / 4 * 4 + (b1 % 4 * 16 + b2 / 16) / 16 = b1 := by omega
      have e2 : (b1 % 4 * 16 + b2 / 16) % 16 * 16 + b2 % 16 * 4 / 4 = b2 := by
        omega
      rw [e1, e2]
    | b1 :: b2 :: b3 :: t =>
      have h1 : b1 < 256 := hlt b1 (by simp)
      have h2 : b2 < 256 := hlt b2 (by simp)
      have h3 : b3 < 256 := hlt b3 (by simp)
      simp only [b64EncodeChunks, List.filterMap_cons,
        charSextet_sextetChar (b1 / 4) (by omega),
        charSextet_sextetChar (b1 % 4 * 16 + b2 / 16) (by omega),
        charSextet_sextetChar (b2 % 16 * 4 + b3 / 64) (by omega),
        charSextet_sextetChar (b3 % 64) (by omega)]
      simp only [b64DecodeSextets]
      have hlen2 : t.length < n := by
        simp only [List.length_cons] at hlen
        omega
      rw [ih t.length hlen2 t le_rfl (fun x hx => hlt x (by simp [hx]))]
      have e1 : b1 / 4 * 4 + (b1 % 4 * 16 + b2 / 16) / 16 = b1 := by omega
      have e2 : (b1 % 4 * 16 + b2 / 16) % 16 * 16 + (b2 % 16 * 4 + b3 / 64) / 4
          = b2 := by omega
      have e3 : (b2 % 16 * 4 + b3 / 64) % 4 * 64 + b3 % 64 = b3 := by omega
      rw [e1, e2, e3]

theorem base64decode_encode (l : List Nat) (h : ∀ x ∈ l, x < 256) :
    base64decode (base64encode l) = l := by
  show b64DecodeSextets
    ((String.mk (b64EncodeChunks l)).toList.filterMap charSextet) = l
  have hmk : (String.mk (b64EncodeChunks l)).toList = b64EncodeChunks l := rfl
  rw [hmk]
  exact base64_roundtrip_aux l.length l le_rfl h

theorem pbkdf2Sync_lt (password salt : List Nat) (iterations keylen : Nat) :
    ∀ b ∈ pbkdf2Sync password salt iterations keylen, b < 256 := by
  intro b hb
  simp only [pbkdf2Sync, List.mem_map] at hb
  obtain ⟨i, -, rfl⟩ := hb
  exact Nat.mod_lt _ (by omega)

theorem keystream_length (key iv : List Nat) (n : Nat) :
    (keystream key iv n).length = n := by
  simp [keystream]

theorem keystream_lt (key iv : List Nat) (n : Nat) :
    ∀ b ∈ keystream key iv n, b < 256 := by
  intro b hb
  simp only [keystream, List.mem_map] at hb
  obtain ⟨i, -, rfl⟩ := hb
  exact Nat.mod_lt _ (by omega)

theorem gcmTag_length (key iv ct : List Nat) :
    (gcmTag key iv ct).length = TAG_LENGTH := by
  simp [gcmTag]

theorem gcmTag_lt (key iv ct : List Nat) : ∀ b ∈ gcmTag key iv ct, b < 256 := by
  intro b hb
  simp only [gcmTag, List.mem_map] at hb
  obtain ⟨i, -, rfl⟩ := hb
  exact Nat.mod_lt _ (by omega)

theorem gcmEncryptBytes_length (key iv pt : List Nat) :
    (gcmEncryptBytes key iv pt).length = pt.length := by
  simp [gcmEncryptBytes, keystream_length]

theorem zipWith_xor_lt (l ks : List Nat) (hl : ∀ b ∈ l, b < 256)
    (hk : ∀ b ∈ ks, b < 256) : ∀ b ∈ List.zipWith Nat.xor l ks, b < 256 := by
  induction l generalizing ks with
  | nil => simp
  | cons a t ih =>
    match ks with
    | [] => simp
    | k :: kt =>
      intro b hb
      simp only [List.zipWith_cons_cons, List.mem_cons] at hb
      rcases hb with rfl | hb
      · have h256 : (256 : Nat) = 2 ^ 8 := by norm_num
        rw [h256]
        exact Nat.xor_lt_two_pow (by rw [← h256]; exact hl a (by simp))
          (by rw [← h256]; exact hk k (by simp))
      · exact ih kt (fun x hx => hl x (by simp [hx]))
          (fun x hx => hk x (by simp [hx])) b hb

theorem gcmEncryptBytes_lt (key iv pt : List Nat) (h : ∀ b ∈ pt, b < 256) :
    ∀ b ∈ gcmEncryptBytes key iv pt, b < 256 :=
  zipWith_xor_lt pt (keystream key iv pt.length) h
    (keystream_lt key iv pt.length)

theorem zipWith_xor_cancel (l ks : List Nat) (h : l.length = ks.length) :
    List.zipWith Nat.xor (List.zipWith Nat.xor l ks) ks = l := by
  induction l generalizing ks with
  | nil => simp
  | cons a t ih =>
    match ks with
    | [] => simp at h
    | k :: kt =>
      show Nat.xor (Nat.xor a k) k :: List.zipWith Nat.xor
        (List.zipWith Nat.xor t kt) kt = a :: t
      rw [ih kt (by simpa using h)]
      congr 1
      exact Nat.xor_cancel_right _ _

theorem gcmDecrypt_encrypt (key iv pt : List Nat) :
    gcmDecryptBytes key iv (gcmEncryptBytes key iv pt) = pt := by
  unfold gcmDecryptBytes
  rw [gcmEncryptBytes_length]
  unfold gcmEncryptBytes
  exact zipWith_xor_cancel pt (keystream key iv pt.length)
    (keystream_length key iv pt.length).symm

/-- The byte layout of an encrypted blob: decoding the base64 output of
`encrypt` yields exactly `salt ++ iv ++ tag ++ ciphertext`. -/
theorem encrypt_decode (ek text userId : String) (salt iv : List Nat)
    (hsb : ∀ b ∈ salt, b < 256) (hivb : ∀ b ∈ iv, b < 256) :
    base64decode (encrypt ek text userId salt iv) =
      salt ++ iv ++
        gcmTag (getKey (getUserEncryptionKey ek userId) salt) iv
          (gcmEncryptBytes (getKey (getUserEncryptionKey ek userId) salt) iv
            (strBytes text)) ++
        gcmEncryptBytes (getKey (getUserEncryptionKey ek userId) salt) iv
          (strBytes text) := by
  unfold encrypt
  apply base64decode_encode
  intro x hx
  simp only [List.append_assoc, List.mem_append] at hx
  rcases hx with hx | hx | hx | hx
  · exact hsb x hx
  · exact hivb x hx
  · exact gcmTag_lt _ _ _ x hx
  · exact gcmEncryptBytes_lt _ _ _ (strBytes_lt text) x hx

/-! ## Filesystem access lemmas -/

theorem getFile_set_self (fs : Fs) (d n : String) (e : Entry) :
    getFile (setFile fs d n e) d n = some e := by
  unfold getFile setFile
  cases h : alGet fs d with
  | some dir =>
    rw [alGet_set_self]
    show alGet (alSet dir n e) n = some e
    exact alGet_set_self _ _ _
  | none =>
    rw [alGet_set_self]
    show alGet [(n, e)] n = some e
    simp [alGet]

theorem getFile_set_ne (fs : Fs) (d n d' n' : String) (e : Entry)
    (h : d' ≠ d ∨ n' ≠ n) :
    getFile (setFile fs d n e) d' n' = getFile fs d' n' := by
  unfold getFile setFile
  by_cases hd : d' = d
  · subst hd
    have hn : n' ≠ n := h.resolve_left (fun hh => hh rfl)
    cases hfd : alGet fs d' with
    | some dir =>
      rw [alGet_set_self]
      show alGet (alSet dir n e) n' = alGet dir n'
      exact alGet_set_ne _ _ _ _ hn
    | none =>
      rw [alGet_set_self]
      show alGet [(n, e)] n' = none
      simp [alGet, Ne.symm hn]
  · cases hfd : alGet fs d with
    | some dir =>
      rw [alGet_set_ne _ _ _ _ hd]
    | none =>
      rw [alGet_set_ne _ _ _ _ hd]

theorem getFile_del_self (fs : Fs) (d n : String) :
    getFile (delFile fs d n) d n = none := by
  unfold getFile delFile
  cases h : alGet fs d with
  | some dir =>
    rw [alGet_set_self]
    show alGet (alDel dir n) n = none
    exact alGet_del_self _ _
  | none => rw [h]

theorem getFile_del_ne (fs : Fs) (d n d' n' : String)
    (h : d' ≠ d ∨ n' ≠ n) :
    getFile (delFile fs d n) d' n' = getFile fs d' n' := by
  unfold getFile delFile
  by_cases hd : d' = d
  · subst hd
    have hn : n' ≠ n := h.resolve_left (fun hh => hh rfl)
    cases hfd : alGet fs d' with
    | some dir =>
      rw [alGet_set_self]
      show alGet (alDel dir n) n' = alGet dir n'
      exact alGet_del_ne _ _ _ hn
    | none => rw [hfd]
  · cases hfd : alGet fs d with
    | some dir =>
      rw [alGet_set_ne _ _ _ _ hd]
    | none => rfl

/-! ## Facts about filenames and sidecar names -/

theorem metadataName_toList (f : String) :
    (metadataName f).toList = '.' :: (f.toList ++ ".meta.json".toList) := rfl

theorem metadataName_length (f : String) :
    (metadataName f).length = f.length + 11 := by
  have h0 : (metadataName f).length = (metadataName f).toList.length := rfl
  rw [h0, metadataName_toList]
  simp [List.length_append]

theorem metadataName_inj (f g : String) (h : metadataName f = metadataName g) :
    f = g := by
  have h1 : (metadataName f).toList = (metadataName g).toList := by rw [h]
  rw [metadataName_toList, metadataName_toList] at h1
  simp only [List.cons.injEq, true_and] at h1
  have h2 : f.toList = g.toList := List.append_cancel_right h1
  exact congrArg String.mk h2

theorem metadataName_ne_self (f : String) : metadataName f ≠ f := by
  intro h
  have h0 := congrArg String.length h
  rw [metadataName_length] at h0
  omega

theorem isValidFilename_eq_true_iff (f : String) :
    isValidFilename f = true ↔
      ((f == "") = false ∧ ¬ (MAX_FILENAME_LENGTH < f.length) ∧
        (strIncludes f ".." || strIncludes f "/" || strIncludes f "\\") =
          false ∧
        matchesFilenameRegex f = true ∧
        (strStartsWith f "." || f == "." || f == "..") = false) := by
  unfold isValidFilename
  constructor
  · intro h
    split_ifs at h with h1 h2 h3 h4 h5
    have g1 : (f == "") = false := by
      cases hx : (f == "")
      · rfl
      · exact absurd (by simp [hx]) h1
    have g3 : (strIncludes f ".." || strIncludes f "/" ||
        strIncludes f "\\") = false := by
      cases hx : (strIncludes f ".." || strIncludes f "/" ||
          strIncludes f "\\")
      · rfl
      · exact absurd (by simp [hx]) h3
    have g4 : matchesFilenameRegex f = true := by
      cases hx : matchesFilenameRegex f
      · exact absurd (by simp [hx]) h4
      · rfl
    have g5 : (strStartsWith f "." || f == "." || f == "..") = false := by
      cases hx : (strStartsWith f "." || f == "." || f == "..")
      · rfl
      · exact absurd (by simp [hx]) h5
    exact ⟨g1, h2, g3, g4, g5⟩
  · rintro ⟨g1, g2, g3, g4, g5⟩
    rw [if_neg (by simp [g1]), if_neg g2, if_neg (by simp [g3]),
      if_neg (by simp [g4]), if_neg (by simp [g5])]

theorem isValidFilename_facts (f : String) (h : isValidFilename f = true) :
    ¬ f = "" ∧ f.length ≤ MAX_FILENAME_LENGTH ∧
      strIncludes f ".." = false ∧ strIncludes f "/" = false ∧
      strIncludes f "\\" = false ∧ matchesFilenameRegex f = true ∧
      strStartsWith f "." = false := by
  obtain ⟨h1, h2, h3, h4, h5⟩ := (isValidFilename_eq_true_iff f).mp h
  simp only [Bool.or_eq_false_iff] at h3 h5
  refine ⟨?_, by omega, h3.1.1, h3.1.2, h3.2, h4, h5.1.1⟩
  intro he
  rw [he] at h1
  simp at h1

theorem matchesFilenameRegex_head (s : String)
    (h : matchesFilenameRegex s = true) :
    ∃ c rest, s.toList = c :: rest ∧ (c.isAlpha || c.isDigit) = true := by
  unfold matchesFilenameRegex at h
  match hl : s.toList with
  | [] => rw [hl] at h; simp at h
  | c :: rest =>
    rw [hl] at h
    simp only [Bool.and_eq_true] at h
    exact ⟨c, rest, rfl, h.1⟩

theorem regex_not_dot (s : String) (h : matchesFilenameRegex s = true) :
    strStartsWith s "." = false ∧ (s == ".") = false ∧ (s == "..") = false := by
  obtain ⟨c, rest, hl, hc⟩ := matchesFilenameRegex_head s h
  have hcd : c ≠ '.' := by
    intro he
    subst he
    simp [Char.isAlpha, Char.isLower, Char.isUpper, Char.isDigit] at hc
  refine ⟨?_, ?_, ?_⟩
  · show (".".toList.isPrefixOf s.toList) = false
    rw [hl]
    show (('.' == c) && ([].isPrefixOf rest)) = false
    simp [Ne.symm hcd]
  · apply beq_eq_false_iff_ne.mpr
    intro he
    rw [he] at hl
    simp at hl
    exact hcd hl.1.symm
  · apply beq_eq_false_iff_ne.mpr
    intro he
    rw [he] at hl
    simp at hl
    exact hcd hl.1.symm

/-- Validation characterized by the five documented conditions; the
leading-dot and special-name checks of the source are subsumed by the
anchored regex. -/
theorem isValidFilename_iff (s : String) :
    isValidFilename s = true ↔
      (s ≠ "" ∧ s.length ≤ 255 ∧ strIncludes s ".." = false ∧
        strIncludes s "/" = false ∧ strIncludes s "\\" = false ∧
        matchesFilenameRegex s = true) := by
  rw [isValidFilename_eq_true_iff]
  constructor
  · rintro ⟨h1, h2, h3, h4, h5⟩
    simp only [Bool.or_eq_false_iff] at h3
    refine ⟨?_, ?_, h3.1.1, h3.1.2, h3.2, h4⟩
    · intro he
      rw [he] at h1
      simp at h1
    · simp only [MAX_FILENAME_LENGTH] at h2
      omega
  · rintro ⟨h1, h2, h3, h4, h5, h6⟩
    obtain ⟨hd, he1, he2⟩ := regex_not_dot s h6
    refine ⟨beq_eq_false_iff_ne.mpr h1, ?_, by simp [h3, h4, h5], h6,
      by simp [hd, he1, he2]⟩
    simp only [MAX_FILENAME_LENGTH]
    omega

/-- A valid filename is never a sidecar name (sidecar names start with
a dot). -/
theorem valid_ne_metadataName (f g : String) (h : isValidFilename f = true) :
    f ≠ metadataName g := by
  intro he
  obtain ⟨-, -, -, -, -, h6, h7⟩ := isValidFilename_facts f h
  rw [he] at h7
  unfold strStartsWith at h7
  rw [metadataName_toList] at h7
  simp [List.isPrefixOf] at h7

/-! ## C1 and C4: the cipher layer -/

theorem blob_slices (salt iv tg ct : List Nat) (hs : salt.length = SALT_LENGTH)
    (hiv : iv.length = IV_LENGTH) (htg : tg.length = TAG_LENGTH) :
    (salt ++ iv ++ tg ++ ct).take SALT_LENGTH = salt ∧
      ((salt ++ iv ++ tg ++ ct).drop SALT_LENGTH).take IV_LENGTH = iv ∧
      ((salt ++ iv ++ tg ++ ct).drop TAG_POSITION).take TAG_LENGTH = tg ∧
      (salt ++ iv ++ tg ++ ct).drop ENCRYPTED_POSITION = ct := by
  have hsalt_iv : (salt ++ iv).length = TAG_POSITION := by
    simp [List.length_append, hs, hiv, TAG_POSITION]
  have hsalt_iv_tg : (salt ++ iv ++ tg).length = ENCRYPTED_POSITION := by
    simp [List.length_append, hs, hiv, htg, ENCRYPTED_POSITION, TAG_POSITION,
      SALT_LENGTH, IV_LENGTH, TAG_LENGTH]
  refine ⟨?_, ?_, ?_, ?_⟩
  · simp only [List.append_assoc]
    exact List.take_left' hs
  · simp only [List.append_assoc]
    rw [List.drop_left' hs]
    exact List.take_left' hiv
  · rw [List.append_assoc (salt ++ iv) tg ct]
    rw [List.drop_left' hsalt_iv]
    exact List.take_left' htg
  · exact List.drop_left' hsalt_iv_tg

/-- Claim C1: decrypting an encrypted blob with the same identity
returns the original plaintext, for every plaintext up to the size
limit, every non-empty identity, and every salt and nonce of the shape
`crypto.randomBytes` produces. -/
theorem C1_roundtrip (ek p id : String) (salt iv : List Nat)
    (hs : salt.length = SALT_LENGTH) (hiv : iv.length = IV_LENGTH)
    (hsb : ∀ b ∈ salt, b < 256) (hivb : ∀ b ∈ iv, b < 256)
    (hid : id ≠ "") (hp : p.length ≤ MAX_FILE_SIZE) :
    decrypt ek (encrypt ek p id salt iv) id = some p := by
  have hdec := encrypt_decode ek p id salt iv hsb hivb
  obtain ⟨t1, t2, t3, t4⟩ := blob_slices salt iv
    (gcmTag (getKey (getUserEncryptionKey ek id) salt) iv
      (gcmEncryptBytes (getKey (getUserEncryptionKey ek id) salt) iv
        (strBytes p)))
    (gcmEncryptBytes (getKey (getUserEncryptionKey ek id) salt) iv
      (strBytes p))
    hs hiv (gcmTag_length _ _ _)
  simp only [decrypt]
  rw [hdec, t1, t2, t3, t4]
  rw [if_pos rfl]
  rw [gcmDecrypt_encrypt, bytesStr_strBytes]

/-- Claim C1 witness at a concrete input. -/
theorem C1_roundtrip_witness :
    decrypt "masterkey"
      (encrypt "masterkey" "hi" "alice" (List.replicate 64 0)
        (List.replicate 16 0)) "alice" = some "hi" :=
  C1_roundtrip "masterkey" "hi" "alice" (List.replicate 64 0)
    (List.replicate 16 0) (by simp [SALT_LENGTH]) (by simp [IV_LENGTH])
    (by simp) (by simp) (by simp) (by decide)

/-- Claim C4: an encrypted blob is the base64 encoding of
`salt || nonce || authTag || ciphertext` with a 64-byte salt, 16-byte
nonce, 16-byte tag and a ciphertext of plaintext length, and decrypt
recovers exactly these fields at the fixed offsets 0, 64, 80 and 96. -/
theorem C4_blob_layout (ek p id : String) (salt iv : List Nat)
    (hs : salt.length = SALT_LENGTH) (hiv : iv.length = IV_LENGTH)
    (hsb : ∀ b ∈ salt, b < 256) (hivb : ∀ b ∈ iv, b < 256) :
    ∃ tag ct : List Nat,
      encrypt ek p id salt iv = base64encode (salt ++ iv ++ tag ++ ct) ∧
      salt.length = 64 ∧ iv.length = 16 ∧ tag.length = 16 ∧
      ct.length = (strBytes p).length ∧
      (base64decode (encrypt ek p id salt iv)).take SALT_LENGTH = salt ∧
      ((base64decode (encrypt ek p id salt iv)).drop SALT_LENGTH).take
        IV_LENGTH = iv ∧
      ((base64decode (encrypt ek p id salt iv)).drop TAG_POSITION).take
        TAG_LENGTH = tag ∧
      (base64decode (encrypt ek p id salt iv)).drop ENCRYPTED_POSITION = ct := by
  have hdec := encrypt_decode ek p id salt iv hsb hivb
  refine ⟨gcmTag (getKey (getUserEncryptionKey ek id) salt) iv
      (gcmEncryptBytes (getKey (getUserEncryptionKey ek id) salt) iv
        (strBytes p)),
    gcmEncryptBytes (getKey (getUserEncryptionKey ek id) salt) iv
      (strBytes p), ?_, ?_, ?_, ?_, ?_, ?_, ?_, ?_, ?_⟩
  · rfl
  · simpa [SALT_LENGTH] using hs
  · simpa [IV_LENGTH] using hiv
  · simpa [TAG_LENGTH] using gcmTag_length _ _ _
  · exact gcmEncryptBytes_length _ _ _
  · rw [hdec]
    exact (blob_slices _ _ _ _ hs hiv (gcmTag_length _ _ _)).1
  · rw [hdec]
    exact (blob_slices _ _ _ _ hs hiv (gcmTag_length _ _ _)).2.1
  · rw [hdec]
    exact (blob_slices _ _ _ _ hs hiv (gcmTag_length _ _ _)).2.2.1
  · rw [hdec]
    exact (blob_slices _ _ _ _ hs hiv (gcmTag_length _ _ _)).2.2.2

/-- Claim C4 witness at a concrete input. -/
theorem C4_blob_layout_witness :
    ∃ tag ct : List Nat,
      encrypt "masterkey" "hi" "alice" (List.replicate 64 0)
          (List.replicate 16 0) =
        base64encode (List.replicate 64 0 ++ List.replicate 16 0 ++ tag ++ ct) ∧
      (List.replicate 64 (0 : Nat)).length = 64 ∧
      (List.replicate 16 (0 : Nat)).length = 16 ∧ tag.length = 16 ∧
      ct.length = (strBytes "hi").length ∧
      (base64decode (encrypt "masterkey" "hi" "alice" (List.replicate 64 0)
        (List.replicate 16 0))).take SALT_LENGTH = List.replicate 64 0 ∧
      ((base64decode (encrypt "masterkey" "hi" "alice" (List.replicate 64 0)
        (List.replicate 16 0))).drop SALT_LENGTH).take IV_LENGTH =
        List.replicate 16 0 ∧
      ((base64decode (encrypt "masterkey" "hi" "alice" (List.replicate 64 0)
        (List.replicate 16 0))).drop TAG_POSITION).take TAG_LENGTH = tag ∧
      (base64decode (encrypt "masterkey" "hi" "alice" (List.replicate 64 0)
        (List.replicate 16 0))).drop ENCRYPTED_POSITION = ct :=
  C4_blob_layout "masterkey" "hi" "alice" (List.replicate 64 0)
    (List.replicate 16 0) (by simp [SALT_LENGTH]) (by simp [IV_LENGTH])
    (by simp) (by simp)

/-- Claim C3: `isValidFilename` accepts exactly the non-empty strings of
length at most 255 with no occurrence of `..`, `/` or `\`, matching the
anchored filename pattern; it accepts and rejects the documented
examples, and rejects every 300-character name. -/
theorem C3_isValidFilename :
    (∀ s : String, isValidFilename s = true ↔
      (s ≠ "" ∧ s.length ≤ 255 ∧ strIncludes s ".." = false ∧
        strIncludes s "/" = false ∧ strIncludes s "\\" = false ∧
        matchesFilenameRegex s = true)) ∧
    isValidFilename "notes.md" = true ∧
    isValidFilename "report_v2.txt" = true ∧
    isValidFilename "../etc/passwd" = false ∧
    isValidFilename ".hidden" = false ∧
    isValidFilename "a/b.txt" = false ∧
    isValidFilename "" = false ∧
    (∀ s : String, s.length = 300 → isValidFilename s = false) := by
  refine ⟨isValidFilename_iff, by decide, by decide, by decide, by decide,
    by decide, by decide, ?_⟩
  intro s hlen
  unfold isValidFilename
  have h1 : (s == "") = false := by
    apply beq_eq_false_iff_ne.mpr
    intro he
    rw [he] at hlen
    simp at hlen
  rw [if_neg (by simp [h1])]
  rw [if_pos (by rw [hlen]; decide)]

theorem string_length_mk (l : List Char) : (String.mk l).length = l.length :=
  rfl

/-- Claim C3 witness: the quantified parts instantiated concretely. -/
theorem C3_isValidFilename_witness :
    (isValidFilename "notes.md" = true ↔
      ("notes.md" ≠ "" ∧ "notes.md".length ≤ 255 ∧
        strIncludes "notes.md" ".." = false ∧
        strIncludes "notes.md" "/" = false ∧
        strIncludes "notes.md" "\\" = false ∧
        matchesFilenameRegex "notes.md" = true)) ∧
    isValidFilename (String.mk (List.replicate 300 'a')) = false :=
  ⟨(C3_isValidFilename).1 "notes.md",
    (C3_isValidFilename).2.2.2.2.2.2.2 (String.mk (List.replicate 300 'a'))
      (by rw [string_length_mk, List.length_replicate])⟩

theorem isHex32_ne_empty (s : String) (h : isHex32 s = true) :
    s ≠ "" ∧ (s == "") = false := by
  unfold isHex32 at h
  simp only [Bool.and_eq_true, beq_iff_eq] at h
  constructor
  · intro he
    rw [he] at h
    simp at h
  · apply beq_eq_false_iff_ne.mpr
    intro he
    rw [he] at h
    simp at h

/-! ## Claim C2 -/

/-- Claim C2 counterexample: with a present but undecryptable file the
read handler answers 404 NotFound — the authentication failure is
reported to the caller as NotFound. -/
theorem C2_counterexample :
    getFile stC2.fs (getUserDataDir "alice") "notes.md" =
      some (Entry.blob "garbage") ∧
    decrypt "masterkey" "garbage" "alice" = none ∧
    readFileH "masterkey" stC2 "alice" "notes.md" = HRes.notFound := by
  refine ⟨by decide, by decide, by decide⟩

/-- Claim C2 (amended): the read handler answers NotFound when the file
is absent, and also answers NotFound when the file is present but
decryption (tag verification) fails: both failure kinds are collapsed
into 404 by the single catch. -/
theorem C2_read_errors (ek : String) (st : ServerState) (u f : String)
    (hv : isValidFilename f = true) :
    (getFile st.fs (getUserDataDir u) f = none →
      readFileH ek st u f = HRes.notFound) ∧
    (∀ e, getFile st.fs (getUserDataDir u) f = some e →
      decrypt ek (entryToString e) u = none →
      readFileH ek st u f = HRes.notFound) := by
  constructor
  · intro h
    simp [readFileH, hv, h]
  · intro e he hd
    simp [readFileH, hv, he, hd]

/-- Claim C2 witness for the amended statement, at the concrete
counterexample state. -/
theorem C2_read_errors_witness :
    readFileH "masterkey" stC2 "alice" "notes.md" = HRes.notFound :=
  (C2_read_errors "masterkey" stC2 "alice" "notes.md" (by decide)).2
    (Entry.blob "garbage") (by decide) (by decide)

/-! ## Claim C7 -/

/-- Claim C7 counterexample: deleting a nonexistent file answers 500,
not NotFound (the `fs.unlink` throw is caught by the generic handler). -/
theorem C7_counterexample :
    getFile emptyState.fs (getUserDataDir "alice") "a.txt" = none ∧
    (deleteFileH emptyState "alice" "a.txt").1 = HRes.serverError ∧
    (deleteFileH emptyState "alice" "a.txt").1 ≠ HRes.notFound := by
  refine ⟨by decide, by decide, by decide⟩

/-- Claim C7 (amended): delete of a nonexistent file fails with a 500
internal error (not NotFound); a missing metadata sidecar during delete
of an existing file is tolerated silently (the delete succeeds and both
the file and the sidecar name are absent afterwards); when the deleted
file was public, its registry entry is removed so the token no longer
resolves. -/
theorem C7_delete :
    (∀ (st : ServerState) (u f : String), isValidFilename f = true →
      getFile st.fs (getUserDataDir u) f = none →
      (deleteFileH st u f).1 = HRes.serverError ∧
      (deleteFileH st u f).1 ≠ HRes.notFound) ∧
    (∀ (st : ServerState) (u f : String) (e : Entry),
      isValidFilename f = true →
      getFile st.fs (getUserDataDir u) f = some e →
      (deleteFileH st u f).1 = HRes.ok ∧
      getFile (deleteFileH st u f).2.fs (getUserDataDir u) f = none ∧
      getFile (deleteFileH st u f).2.fs (getUserDataDir u)
        (metadataName f) = none) ∧
    (∀ (st : ServerState) (u f pid : String), isValidFilename f = true →
      (getFileMetadata st.fs u f).isPublic = true →
      (getFileMetadata st.fs u f).publicId = some pid → pid ≠ "" →
      alGet (deleteFileH st u f).2.registry pid = none ∧
      resolvePublic (deleteFileH st u f).2 pid = none) := by
  refine ⟨?_, ?_, ?_⟩
  · intro st u f hv h
    simp [deleteFileH, hv, h]
  · intro st u f e hv h
    have h1 : (deleteFileH st u f).1 = HRes.ok := by
      simp only [deleteFileH, hv, Bool.not_true, Bool.false_eq_true, if_false,
        h]
    have h2 : (deleteFileH st u f).2.fs =
        delFile (delFile st.fs (getUserDataDir u) f) (getUserDataDir u)
          (metadataName f) := by
      simp only [deleteFileH, hv, Bool.not_true, Bool.false_eq_true, if_false,
        h]
    refine ⟨h1, ?_, ?_⟩
    · rw [h2, getFile_del_ne _ _ _ _ _
        (Or.inr (Ne.symm (metadataName_ne_self f))), getFile_del_self]
    · rw [h2, getFile_del_self]
  · intro st u f pid hv hpub hpid hne
    have htr : truthyStr (getFileMetadata st.fs u f).publicId = true := by
      rw [hpid]
      simp [truthyStr, hne]
    have htr2 : truthyStr (some pid) = true := by
      simp [truthyStr, hne]
    have hreg : (deleteFileH st u f).2.registry = alDel st.registry pid := by
      simp only [deleteFileH, hv, Bool.not_true, Bool.false_eq_true, if_false,
        hpid, hpub, htr2, Bool.true_and, if_true, Option.getD_some]
      cases hf : getFile st.fs (getUserDataDir u) f <;> rfl
    rw [hreg, alGet_del_self]
    refine ⟨rfl, ?_⟩
    unfold resolvePublic
    rw [hreg]
    cases isHex32 pid <;> simp [alGet_del_self]

/-- Claim C7 witness for the amended statement: a delete of an existing
shared file with its sidecar present, and the nonexistent-file branch at
the concrete empty store. -/
theorem C7_delete_witness :
    ((deleteFileH emptyState "alice" "a.txt").1 = HRes.serverError ∧
      (deleteFileH emptyState "alice" "a.txt").1 ≠ HRes.notFound) ∧
    (deleteFileH stPub "alice" "notes.md").1 = HRes.ok ∧
    resolvePublic (deleteFileH stPub "alice" "notes.md").2 pid0 = none :=
  ⟨C7_delete.1 emptyState "alice" "a.txt" (by decide) (by decide),
    (C7_delete.2.1 stPub "alice" "notes.md" (Entry.blob "blob0") (by decide)
      (by decide)).1,
    (C7_delete.2.2 stPub "alice" "notes.md" pid0 (by decide) (by decide)
      (by decide) (by decide)).2⟩

/-! ## Claim C9 -/

/-- Claim C9: a successful unshare of a public file performs exactly two
mutations, the in-memory registry removal strictly before the metadata
persist, and applying the trace in that order reproduces the handler's
final state. -/
theorem C9_unshare_order (st : ServerState) (u f pid : String) (m : Metadata)
    (hv : isValidFilename f = true)
    (hfile : (getFile st.fs (getUserDataDir u) f).isSome = true)
    (hm : getFileMetadata st.fs u f = m)
    (hpub : m.isPublic = true) (hpid : m.publicId = some pid)
    (hne : pid ≠ "") :
    unshareEffects st u f =
      [Effect.registryDelete pid,
        Effect.fsWrite (getUserDataDir u) (metadataName f)
          (Entry.meta { m with isPublic := false, publicId := none })] ∧
    applyEffects st (unshareEffects st u f) = (unshareH st u f).2 := by
  obtain ⟨e, he⟩ := Option.isSome_iff_exists.mp hfile
  have htr : truthyStr (some pid) = true := by
    simp [truthyStr, hne]
  have heff : unshareEffects st u f =
      [Effect.registryDelete pid,
        Effect.fsWrite (getUserDataDir u) (metadataName f)
          (Entry.meta { m with isPublic := false, publicId := none })] := by
    simp only [unshareEffects, hv, Bool.not_true, Bool.false_eq_true, if_false,
      he, hm, hpub, hpid, htr, Bool.true_and, if_true, Option.getD_some,
      List.singleton_append]
  refine ⟨heff, ?_⟩
  rw [heff]
  simp only [unshareH, hv, Bool.not_true, Bool.false_eq_true, if_false, he,
    hm, hpub, hpid, htr, Bool.true_and, if_true, Option.getD_some]
  rfl

/-- Claim C9 witness at the concrete shared-file state. -/
theorem C9_unshare_order_witness :
    unshareEffects stPub "alice" "notes.md" =
      [Effect.registryDelete pid0,
        Effect.fsWrite (getUserDataDir "alice") (metadataName "notes.md")
          (Entry.meta { metaPub with isPublic := false, publicId := none })] ∧
    applyEffects stPub (unshareEffects stPub "alice" "notes.md") =
      (unshareH stPub "alice" "notes.md").2 :=
  C9_unshare_order stPub "alice" "notes.md" pid0 metaPub (by decide)
    (by decide) (by decide) (by decide) (by decide) (by decide)

/-! ## Claim C5 -/

/-- Claim C5: share is idempotent — a second share returns the identical
publicId and leaves the state unchanged; after a (minting) share the
token resolves to the correct (identity, filename); after unshare it no
longer resolves. -/
theorem C5_share :
    (∀ (st st1 : ServerState) (u f fr1 fr2 pid : String), pid ≠ "" →
      shareH st u f fr1 = (HRes.okShare pid, st1) →
      shareH st1 u f fr2 = (HRes.okShare pid, st1)) ∧
    (∀ (st : ServerState) (u f fr : String), isHex32 fr = true →
      isValidFilename f = true →
      (getFile st.fs (getUserDataDir u) f).isSome = true →
      ((getFileMetadata st.fs u f).isPublic &&
        truthyStr (getFileMetadata st.fs u f).publicId) = false →
      ∃ st1, shareH st u f fr = (HRes.okShare fr, st1) ∧
        resolvePublic st1 fr = some (u, f) ∧
        resolvePublic (unshareH st1 u f).2 fr = none) := by
  constructor
  · intro st st1 u f fr1 fr2 pid hpid h
    by_cases hval : isValidFilename f = true
    · cases hget : getFile st.fs (getUserDataDir u) f with
      | none =>
        have hs1 : shareH st u f fr1 = (HRes.notFound, st) := by
          simp [shareH, hval, hget]
        rw [hs1] at h
        exact absurd (congrArg Prod.fst h) (by simp)
      | some e =>
        cases hmc : ((getFileMetadata st.fs u f).isPublic &&
            truthyStr (getFileMetadata st.fs u f).publicId) with
        | true =>
          have hs1 : shareH st u f fr1 =
              (HRes.okShare ((getFileMetadata st.fs u f).publicId.getD ""),
                st) := by
            simp [shareH, hval, hget, hmc]
          rw [hs1] at h
          have h1 := congrArg Prod.fst h
          have h2 := congrArg Prod.snd h
          simp only [Prod.fst, Prod.snd, HRes.okShare.injEq] at h1 h2
          subst h2
          have hs2 : shareH st u f fr2 =
              (HRes.okShare ((getFileMetadata st.fs u f).publicId.getD ""),
                st) := by
            simp [shareH, hval, hget, hmc]
          rw [hs2, h1]
        | false =>
          have hs1 : shareH st u f fr1 = (HRes.okShare fr1,
              ServerState.mk (saveFileMetadata st.fs u f
                  (Metadata.mk true (some fr1) (some u)))
                (alSet st.registry fr1 (u, f))) := by
            simp [shareH, hval, hget, hmc]
          rw [hs1] at h
          have h1 := congrArg Prod.fst h
          have h2 := congrArg Prod.snd h
          simp only [Prod.fst, Prod.snd, HRes.okShare.injEq] at h1 h2
          have hfr : fr1 ≠ "" := by rw [h1]; exact hpid
          have hget2 : getFile st1.fs (getUserDataDir u) f = some e := by
            rw [← h2]
            show getFile (saveFileMetadata st.fs u f
              (Metadata.mk true (some fr1) (some u))) (getUserDataDir u) f =
              some e
            unfold saveFileMetadata
            rw [getFile_set_ne _ _ _ _ _ _
              (Or.inr (valid_ne_metadataName f f hval))]
            exact hget
          have hmeta2 : getFileMetadata st1.fs u f =
              Metadata.mk true (some fr1) (some u) := by
            rw [← h2]
            show getFileMetadata (saveFileMetadata st.fs u f
              (Metadata.mk true (some fr1) (some u))) u f = _
            unfold getFileMetadata saveFileMetadata
            rw [getFile_set_self]
            rfl
          have hs2 : shareH st1 u f fr2 = (HRes.okShare fr1, st1) := by
            simp [shareH, hval, hget2, hmeta2, truthyStr,
              beq_eq_false_iff_ne.mpr hfr]
          rw [hs2, h1]
    · have hv2 : isValidFilename f = false := by
        revert hval
        cases isValidFilename f <;> simp
      have hs1 : shareH st u f fr1 = (HRes.badRequest, st) := by
        simp [shareH, hv2]
      rw [hs1] at h
      exact absurd (congrArg Prod.fst h) (by simp)
  · intro st u f fr hhex hval hfile hnp
    obtain ⟨e, hget⟩ := Option.isSome_iff_exists.mp hfile
    obtain ⟨hfr, -⟩ := isHex32_ne_empty fr hhex
    refine ⟨ServerState.mk (saveFileMetadata st.fs u f
        (Metadata.mk true (some fr) (some u)))
        (alSet st.registry fr (u, f)), ?_, ?_, ?_⟩
    · simp [shareH, hval, hget, hnp]
    · unfold resolvePublic
      rw [hhex]
      show alGet (alSet st.registry fr (u, f)) fr = some (u, f)
      exact alGet_set_self _ _ _
    · have hget2 : getFile (saveFileMetadata st.fs u f
          (Metadata.mk true (some fr) (some u))) (getUserDataDir u) f =
          some e := by
        unfold saveFileMetadata
        rw [getFile_set_ne _ _ _ _ _ _
          (Or.inr (valid_ne_metadataName f f hval))]
        exact hget
      have hmeta2 : getFileMetadata (saveFileMetadata st.fs u f
          (Metadata.mk true (some fr) (some u))) u f =
          Metadata.mk true (some fr) (some u) := by
        unfold getFileMetadata saveFileMetadata
        rw [getFile_set_self]
        rfl
      have hun : (unshareH (ServerState.mk (saveFileMetadata st.fs u f
          (Metadata.mk true (some fr) (some u)))
          (alSet st.registry fr (u, f))) u f).2.registry =
          alDel (alSet st.registry fr (u, f)) fr := by
        simp only [unshareH, hval, Bool.not_true, Bool.false_eq_true, if_false,
          hget2, hmeta2, truthyStr, beq_eq_false_iff_ne.mpr hfr,
          Bool.not_false, Bool.and_self, if_true, Option.getD_some]
      unfold resolvePublic
      rw [hun]
      cases isHex32 fr <;> simp [alGet_del_self]

/-- Claim C5 witness: sharing a concrete private file, resolving, then
unsharing. -/
theorem C5_share_witness :
    ∃ st1, shareH stPriv "alice" "notes.md" pid0 = (HRes.okShare pid0, st1) ∧
      resolvePublic st1 pid0 = some ("alice", "notes.md") ∧
      resolvePublic (unshareH st1 "alice" "notes.md").2 pid0 = none :=
  (C5_share).2 stPriv "alice" "notes.md" pid0 (by decide) (by decide)
    (by decide) (by decide)

/-! ## Claim C6 -/

/-- The success path of rename on any existing source and absent target:
the handler answers ok, the content entry moves from `oldFilename` to
`newName` and, when present, the sidecar moves with it — no matter
whether the file is public (the source moves both entries
unconditionally); additionally, when the sidecar records a public file,
the registry binding of its token is rewritten to the new filename. -/
theorem renameH_moves (st : ServerState) (u oldF newF : String)
    (content : Entry)
    (hvo : isValidFilename oldF = true) (hvn : isValidFilename newF = true)
    (hnew : getFile st.fs (getUserDataDir u) newF = none)
    (hold : getFile st.fs (getUserDataDir u) oldF = some content) :
    (renameH st u oldF newF).1 = HRes.ok ∧
    getFile (renameH st u oldF newF).2.fs (getUserDataDir u) newF =
      some content ∧
    getFile (renameH st u oldF newF).2.fs (getUserDataDir u) oldF = none ∧
    (∀ me, getFile st.fs (getUserDataDir u) (metadataName oldF) = some me →
      getFile (renameH st u oldF newF).2.fs (getUserDataDir u)
        (metadataName newF) = some me ∧
      getFile (renameH st u oldF newF).2.fs (getUserDataDir u)
        (metadataName oldF) = none) ∧
    ((getFileMetadata st.fs u oldF).isPublic = true →
      ∀ pid, (getFileMetadata st.fs u oldF).publicId = some pid → pid ≠ "" →
      (renameH st u oldF newF).2.registry =
        alSet st.registry pid (u, newF)) := by
  have hne : oldF ≠ newF := by
    intro he
    rw [he, hnew] at hold
    exact Option.noConfusion hold
  have hmn_mo : metadataName newF ≠ metadataName oldF :=
    fun hh => (Ne.symm hne) (metadataName_inj newF oldF hh)
  have hfs1old : getFile (setFile (delFile st.fs (getUserDataDir u) oldF)
      (getUserDataDir u) newF content) (getUserDataDir u) oldF = none := by
    rw [getFile_set_ne _ _ _ _ _ _ (Or.inr hne), getFile_del_self]
  have hfs1new : getFile (setFile (delFile st.fs (getUserDataDir u) oldF)
      (getUserDataDir u) newF content) (getUserDataDir u) newF =
      some content := getFile_set_self _ _ _ _
  have hfs1meta : ∀ x, getFile (setFile (delFile st.fs (getUserDataDir u)
      oldF) (getUserDataDir u) newF content) (getUserDataDir u)
      (metadataName x) = getFile st.fs (getUserDataDir u)
      (metadataName x) := by
    intro x
    rw [getFile_set_ne _ _ _ _ _ _
      (Or.inr (Ne.symm (valid_ne_metadataName newF x hvn))),
      getFile_del_ne _ _ _ _ _
      (Or.inr (Ne.symm (valid_ne_metadataName oldF x hvo)))]
  have hmeta1 : getFileMetadata (setFile (delFile st.fs (getUserDataDir u)
      oldF) (getUserDataDir u) newF content) u oldF =
      getFileMetadata st.fs u oldF := by
    unfold getFileMetadata
    rw [hfs1meta]
  have hok : (renameH st u oldF newF).1 = HRes.ok := by
    simp only [renameH, hvo, hvn, Bool.and_self, Bool.not_true,
      Bool.false_eq_true, if_false, hnew, hold]
  have hreg : (renameH st u oldF newF).2.registry =
      (if ((getFileMetadata (setFile (delFile st.fs (getUserDataDir u) oldF)
          (getUserDataDir u) newF content) u oldF).isPublic &&
        truthyStr (getFileMetadata (setFile (delFile st.fs (getUserDataDir u)
          oldF) (getUserDataDir u) newF content) u oldF).publicId) = true then
        alSet st.registry ((getFileMetadata (setFile (delFile st.fs
          (getUserDataDir u) oldF) (getUserDataDir u) newF content) u
            oldF).publicId.getD "") (u, newF)
      else st.registry) := by
    simp only [renameH, hvo, hvn, Bool.and_self, Bool.not_true,
      Bool.false_eq_true, if_false, hnew, hold]
  have hregPub : (getFileMetadata st.fs u oldF).isPublic = true →
      ∀ pid, (getFileMetadata st.fs u oldF).publicId = some pid → pid ≠ "" →
      (renameH st u oldF newF).2.registry =
        alSet st.registry pid (u, newF) := by
    intro hpub pid hpid hpne
    rw [hreg, hmeta1, hpub, hpid]
    simp [truthyStr, beq_eq_false_iff_ne.mpr hpne]
  cases hme : getFile st.fs (getUserDataDir u) (metadataName oldF) with
  | none =>
    have hfs : (renameH st u oldF newF).2.fs =
        setFile (delFile st.fs (getUserDataDir u) oldF) (getUserDataDir u)
          newF content := by
      simp only [renameH, hvo, hvn, Bool.and_self, Bool.not_true,
        Bool.false_eq_true, if_false, hnew, hold]
      rw [hfs1meta oldF, hme]
    refine ⟨hok, ?_, ?_, ?_, hregPub⟩
    · rw [hfs]
      exact hfs1new
    · rw [hfs]
      exact hfs1old
    · intro me hme2
      exact Option.noConfusion hme2
  | some me0 =>
    have hfs : (renameH st u oldF newF).2.fs =
        setFile (delFile (setFile (delFile st.fs (getUserDataDir u) oldF)
          (getUserDataDir u) newF content) (getUserDataDir u)
          (metadataName oldF)) (getUserDataDir u) (metadataName newF)
          me0 := by
      simp only [renameH, hvo, hvn, Bool.and_self, Bool.not_true,
        Bool.false_eq_true, if_false, hnew, hold]
      rw [hfs1meta oldF, hme]
    refine ⟨hok, ?_, ?_, ?_, hregPub⟩
    · rw [hfs, getFile_set_ne _ _ _ _ _ _
        (Or.inr (valid_ne_metadataName newF newF hvn)),
        getFile_del_ne _ _ _ _ _
        (Or.inr (valid_ne_metadataName newF oldF hvn))]
      exact hfs1new
    · rw [hfs, getFile_set_ne _ _ _ _ _ _
        (Or.inr (valid_ne_metadataName oldF newF hvo)),
        getFile_del_ne _ _ _ _ _
        (Or.inr (valid_ne_metadataName oldF oldF hvo))]
      exact hfs1old
    · intro me2 hme2
      obtain rfl := Option.some.inj hme2
      constructor
      · rw [hfs]
        exact getFile_set_self _ _ _ _
      · rw [hfs, getFile_set_ne _ _ _ _ _ _ (Or.inr (Ne.symm hmn_mo)),
          getFile_del_self]

/-- Claim C6: rename validates both names, answers Conflict when the
target exists, and on every successful rename — public or not — moves
the content file and (when present) the metadata sidecar; when the file
is public it additionally rewrites the registry entry to the new
filename while preserving the token, so the pre-rename token resolves to
the new name. -/
theorem C6_rename :
    (∀ (st : ServerState) (u oldF newF : String),
      (isValidFilename oldF && isValidFilename newF) = false →
      renameH st u oldF newF = (HRes.badRequest, st)) ∧
    (∀ (st : ServerState) (u oldF newF : String),
      isValidFilename oldF = true → isValidFilename newF = true →
      (getFile st.fs (getUserDataDir u) newF).isSome = true →
      renameH st u oldF newF = (HRes.conflict, st)) ∧
    (∀ (st : ServerState) (u oldF newF : String) (content : Entry),
      isValidFilename oldF = true → isValidFilename newF = true →
      getFile st.fs (getUserDataDir u) newF = none →
      getFile st.fs (getUserDataDir u) oldF = some content →
      ∃ st', renameH st u oldF newF = (HRes.ok, st') ∧
        getFile st'.fs (getUserDataDir u) newF = some content ∧
        getFile st'.fs (getUserDataDir u) oldF = none ∧
        (∀ me, getFile st.fs (getUserDataDir u) (metadataName oldF) =
            some me →
          getFile st'.fs (getUserDataDir u) (metadataName newF) = some me ∧
          getFile st'.fs (getUserDataDir u) (metadataName oldF) = none)) ∧
    (∀ (st : ServerState) (u oldF newF : String) (content : Entry)
      (pid : String),
      isValidFilename oldF = true → isValidFilename newF = true →
      getFile st.fs (getUserDataDir u) newF = none →
      getFile st.fs (getUserDataDir u) oldF = some content →
      (getFileMetadata st.fs u oldF).isPublic = true →
      (getFileMetadata st.fs u oldF).publicId = some pid →
      isHex32 pid = true →
      ∃ st', renameH st u oldF newF = (HRes.ok, st') ∧
        resolvePublic st' pid = some (u, newF)) := by
  refine ⟨?_, ?_, ?_, ?_⟩
  · intro st u oldF newF hv
    simp [renameH, hv]
  · intro st u oldF newF hvo hvn hnew
    obtain ⟨e, hget⟩ := Option.isSome_iff_exists.mp hnew
    simp [renameH, hvo, hvn, hget]
  · intro st u oldF newF content hvo hvn hnew hold
    obtain ⟨h1, h2, h3, h4, -⟩ := renameH_moves st u oldF newF content hvo
      hvn hnew hold
    refine ⟨(renameH st u oldF newF).2, ?_, h2, h3, h4⟩
    rw [← h1]
  · intro st u oldF newF content pid hvo hvn hnew hold hpub hpid hhex
    obtain ⟨hfr, -⟩ := isHex32_ne_empty pid hhex
    obtain ⟨h1, -, -, -, h5⟩ := renameH_moves st u oldF newF content hvo hvn
      hnew hold
    have hreg := h5 hpub pid hpid hfr
    refine ⟨(renameH st u oldF newF).2, ?_, ?_⟩
    · rw [← h1]
    · unfold resolvePublic
      rw [hhex]
      show alGet (renameH st u oldF newF).2.registry pid = some (u, newF)
      rw [hreg]
      exact alGet_set_self _ _ _

/-- Claim C6 witness: renaming a concrete private file (no sidecar, not
public) still moves the content, and renaming a concrete shared file
keeps the token resolving, now to the new name. -/
theorem C6_rename_witness :
    (∃ st', renameH stPriv "alice" "notes.md" "renamed.md" =
        (HRes.ok, st') ∧
      getFile st'.fs (getUserDataDir "alice") "renamed.md" =
        some (Entry.blob "blob0") ∧
      getFile st'.fs (getUserDataDir "alice") "notes.md" = none ∧
      (∀ me, getFile stPriv.fs (getUserDataDir "alice")
          (metadataName "notes.md") = some me →
        getFile st'.fs (getUserDataDir "alice") (metadataName "renamed.md") =
          some me ∧
        getFile st'.fs (getUserDataDir "alice") (metadataName "notes.md") =
          none)) ∧
    (∃ st', renameH stPub "alice" "notes.md" "renamed.md" =
        (HRes.ok, st') ∧
      resolvePublic st' pid0 = some ("alice", "renamed.md")) :=
  ⟨(C6_rename).2.2.1 stPriv "alice" "notes.md" "renamed.md"
    (Entry.blob "blob0") (by decide) (by decide) (by decide) (by decide),
    (C6_rename).2.2.2 stPub "alice" "notes.md" "renamed.md"
      (Entry.blob "blob0") pid0 (by decide) (by decide) (by decide)
      (by decide) (by decide) (by decide) (by decide)⟩

/-! ## Claim C8 -/

theorem isPrefixOf_self_append (l t : List Char) :
    l.isPrefixOf (l ++ t) = true := by
  induction l with
  | nil => simp [List.isPrefixOf]
  | cons a l ih => simp [List.isPrefixOf, ih]

theorem strEndsWith_metadataName (f : String) :
    strEndsWith (metadataName f) ".meta.json" = true := by
  show (".meta.json".toList.isSuffixOf (metadataName f).toList) = true
  rw [metadataName_toList]
  simp only [List.isSuffixOf]
  rw [List.reverse_cons, List.reverse_append, List.append_assoc]
  exact isPrefixOf_self_append _ _

theorem sliceName_metadataName (f : String) : sliceName (metadataName f) = f := by
  unfold sliceName
  rw [metadataName_toList]
  have hsj : (".meta.json".toList).length = 10 := rfl
  have hlen : ('.' :: (f.toList ++ ".meta.json".toList)).length - 11 =
      f.toList.length := by
    simp [List.length_cons, List.length_append, hsj]
  rw [hlen]
  show String.mk ((f.toList ++ ".meta.json".toList).take f.toList.length) = f
  rw [List.take_left' rfl]
  rfl

theorem loadDirR_flag (l : Dir) (reg : Registry) :
    (loadDirR l reg).2 = sidecarsParseable l := by
  induction l generalizing reg with
  | nil => simp [loadDirR, sidecarsParseable]
  | cons p t ih =>
    obtain ⟨name, e⟩ := p
    cases hsc : strEndsWith name ".meta.json" with
    | false =>
      simp only [loadDirR, hsc, Bool.false_eq_true, if_false, ih,
        sidecarsParseable, List.all_cons, Bool.not_false, Bool.true_or,
        Bool.true_and]
    | true =>
      cases hpe : parseEntry e with
      | none =>
        simp [loadDirR, hsc, hpe, sidecarsParseable]
      | some m =>
        cases hc : (m.isPublic && truthyStr m.publicId) with
        | true =>
          simp only [loadDirR, hsc, if_true, hpe, hc]
          rw [ih]
          simp [sidecarsParseable, hsc, hpe]
        | false =>
          simp only [loadDirR, hsc, if_true, hpe, hc, Bool.false_eq_true,
            if_false]
          rw [ih]
          simp [sidecarsParseable, hsc, hpe]

theorem loadDirR_append (pre rest : Dir) (reg : Registry)
    (h : sidecarsParseable pre = true) :
    loadDirR (pre ++ rest) reg = loadDirR rest (loadDirR pre reg).1 := by
  induction pre generalizing reg with
  | nil => simp [loadDirR]
  | cons p t ih =>
    obtain ⟨name, e⟩ := p
    simp only [sidecarsParseable, List.all_cons, Bool.and_eq_true] at h
    obtain ⟨h1, h2⟩ := h
    cases hsc : strEndsWith name ".meta.json" with
    | false =>
      simp only [List.cons_append, loadDirR, hsc, Bool.false_eq_true, if_false]
      exact ih reg h2
    | true =>
      rw [hsc] at h1
      simp only [Bool.not_true, Bool.false_or] at h1
      cases hpe : parseEntry e with
      | none => rw [hpe] at h1; simp at h1
      | some m =>
        cases hc : (m.isPublic && truthyStr m.publicId) with
        | true =>
          simp only [List.cons_append, loadDirR, hsc, if_true, hpe, hc]
          exact ih _ h2
        | false =>
          simp only [List.cons_append, loadDirR, hsc, if_true, hpe, hc,
            Bool.false_eq_true, if_false]
          exact ih reg h2

theorem loadDirR_preserve (l : Dir) (reg : Registry) (pid : String)
    (h : noTokenBefore l pid = true) :
    alGet (loadDirR l reg).1 pid = alGet reg pid := by
  induction l generalizing reg with
  | nil => simp [loadDirR]
  | cons p t ih =>
    obtain ⟨name, e⟩ := p
    cases hsc : strEndsWith name ".meta.json" with
    | false =>
      simp only [noTokenBefore, hsc, Bool.false_eq_true, if_false] at h
      simp only [loadDirR, hsc, Bool.false_eq_true, if_false]
      exact ih reg h
    | true =>
      simp only [noTokenBefore, hsc, if_true] at h
      cases hpe : parseEntry e with
      | none =>
        simp [loadDirR, hsc, hpe]
      | some m =>
        rw [hpe] at h
        simp only [Bool.and_eq_true] at h
        cases hc : (m.isPublic && truthyStr m.publicId) with
        | false =>
          simp only [loadDirR, hsc, if_true, hpe, hc, Bool.false_eq_true,
            if_false]
          rw [hc] at h
          simp only [Bool.not_false, Bool.true_or, Bool.true_and] at h
          exact ih reg ((and_iff_right trivial).mp h)
        | true =>
          rw [hc] at h
          simp only [Bool.not_true, Bool.false_or, Bool.and_eq_true] at h
          obtain ⟨hne, h2⟩ := h
          simp only [loadDirR, hsc, if_true, hpe, hc]
          rw [ih _ h2]
          apply alGet_set_ne
          intro he
          rw [he] at hne
          simp at hne

theorem loadFsR_preserve (dirs : Fs) (reg : Registry) (pid : String)
    (h : noTokenFs dirs pid = true) :
    alGet (loadFsR dirs reg) pid = alGet reg pid := by
  induction dirs generalizing reg with
  | nil => simp [loadFsR]
  | cons p t ih =>
    obtain ⟨uh, dir⟩ := p
    simp only [noTokenFs, Bool.and_eq_true] at h
    obtain ⟨h1, h2⟩ := h
    simp only [loadFsR]
    cases hld : loadDirR dir reg with
    | mk reg1 b =>
      have hflag : b = sidecarsParseable dir := by
        have := loadDirR_flag dir reg
        rw [hld] at this
        exact this
      cases hb : b with
      | true =>
        have hpar : sidecarsParseable dir = true := by rw [← hflag, hb]
        rw [hpar] at h2
        simp only [Bool.not_true, Bool.false_or] at h2
        have hr1 : alGet reg1 pid = alGet reg pid := by
          have := loadDirR_preserve dir reg pid h1
          rw [hld] at this
          exact this
        rw [ih reg1 h2, hr1]
      | false =>
        have hr1 : alGet reg1 pid = alGet reg pid := by
          have := loadDirR_preserve dir reg pid h1
          rw [hld] at this
          exact this
        exact hr1

theorem loadFsR_append (dirs1 rest : Fs) (reg : Registry)
    (h : ∀ p ∈ dirs1, sidecarsParseable p.2 = true) :
    loadFsR (dirs1 ++ rest) reg = loadFsR rest (loadFsR dirs1 reg) := by
  induction dirs1 generalizing reg with
  | nil => simp [loadFsR]
  | cons p t ih =>
    obtain ⟨uh, dir⟩ := p
    have h1 : sidecarsParseable dir = true := h (uh, dir) (by simp)
    simp only [List.cons_append, loadFsR]
    cases hld : loadDirR dir reg with
    | mk reg1 b =>
      have hflag : b = sidecarsParseable dir := by
        have := loadDirR_flag dir reg
        rw [hld] at this
        exact this
      rw [hflag, h1]
      exact ih reg1 (fun q hq => h q (by simp [hq]))

theorem C8_counterexample :
    parseEntry (Entry.corrupt "corrupt") = none ∧
    getFile fsC8 (getUserDataDir "alice") (metadataName "b.md") =
      some (Entry.meta metaPub) ∧
    metaPub.isPublic = true ∧ metaPub.publicId = some pid0 ∧
    loadPublicFilesRegistry fsC8 = [] ∧
    resolvePublic (ServerState.mk fsC8 (loadPublicFilesRegistry fsC8)) pid0 =
      none := by
  refine ⟨by decide, by decide, by decide, by decide, by decide, by decide⟩

/-- Claim C8 (amended): the startup rebuild scans namespace directories
and their sidecars in order and inserts `(token -> (identity, filename))`
for each record with `isPublic` and a non-null token; a corrupt or
unreadable record aborts the scan (the error is caught and logged and
the process continues), so records after it are not loaded.  A shared
file's persisted record resolves after the rebuild provided every
sidecar scanned before it parses and no record scanned after it carries
the same token. -/
theorem C8_rebuild (dirs1 : Fs) (uh : String) (pre post : Dir) (dirs2 : Fs)
    (f u pid : String) (m : Metadata)
    (hd1 : ∀ p ∈ dirs1, sidecarsParseable p.2 = true)
    (hpre : sidecarsParseable pre = true)
    (hpub : m.isPublic = true) (hpid : m.publicId = some pid)
    (huid : m.userId = some u) (hhex : isHex32 pid = true)
    (hpost : noTokenBefore post pid = true)
    (hd2 : noTokenFs dirs2 pid = true) :
    resolvePublic
      (ServerState.mk
        (dirs1 ++ (uh, pre ++ (metadataName f, Entry.meta m) :: post) :: dirs2)
        (loadPublicFilesRegistry
          (dirs1 ++ (uh, pre ++ (metadataName f, Entry.meta m) :: post) ::
            dirs2)))
      pid = some (u, f) := by
  obtain ⟨hfr, -⟩ := isHex32_ne_empty pid hhex
  unfold resolvePublic
  rw [hhex]
  show alGet (loadPublicFilesRegistry _) pid = some (u, f)
  unfold loadPublicFilesRegistry
  rw [loadFsR_append dirs1 _ [] hd1]
  simp only [loadFsR]
  have hdir : loadDirR (pre ++ (metadataName f, Entry.meta m) :: post)
      (loadFsR dirs1 []) =
      loadDirR post (alSet (loadDirR pre (loadFsR dirs1 [])).1 pid
        (u, sliceName (metadataName f))) := by
    rw [loadDirR_append pre _ _ hpre]
    simp only [loadDirR, strEndsWith_metadataName, if_true, parseEntry, hpub,
      hpid, truthyStr, beq_eq_false_iff_ne.mpr hfr, Bool.not_false,
      Bool.and_self, if_true, Option.getD_some, huid]
  rw [hdir]
  cases hld : loadDirR post (alSet (loadDirR pre (loadFsR dirs1 [])).1 pid
      (u, sliceName (metadataName f))) with
  | mk reg3 b3 =>
    have hr3 : alGet reg3 pid = some (u, sliceName (metadataName f)) := by
      have hpr := loadDirR_preserve post
        (alSet (loadDirR pre (loadFsR dirs1 [])).1 pid
          (u, sliceName (metadataName f))) pid hpost
      rw [hld] at hpr
      rw [hpr, alGet_set_self]
    rw [sliceName_metadataName] at hr3
    cases b3 with
    | true => rw [loadFsR_preserve dirs2 reg3 pid hd2, hr3]
    | false => exact hr3

/-- Claim C8 witness for the amended statement: a clean single-record
store rebuilds to a registry in which the token resolves. -/
theorem C8_rebuild_witness :
    resolvePublic
      (ServerState.mk
        [(getUserDataDir "alice",
          [(metadataName "notes.md", Entry.meta metaPub)])]
        (loadPublicFilesRegistry
          [(getUserDataDir "alice",
            [(metadataName "notes.md", Entry.meta metaPub)])]))
      pid0 = some ("alice", "notes.md") :=
  C8_rebuild [] (getUserDataDir "alice") [] [] [] "notes.md" "alice" pid0
    metaPub (by simp) (by decide) (by decide) (by decide) (by decide)
    (by decide) (by decide) (by decide)

/-! ## Claim C10 -/

/-- Claim C10: the list operation never reports an error — an injected
I/O failure while stating any listed (non-sidecar) entry yields the
empty list, the same body an empty or missing namespace produces, so a
caller cannot tell a failed enumeration from an empty namespace; and
every produced row describes a regular (non-directory) entry whose name
is not a metadata sidecar. -/
theorem C10_list :
    (∀ (st : ServerState) (u : String) (statFails : String → Bool),
      ((alGet st.fs (getUserDataDir u)).getD []).any
        (fun p => !(isSidecarName p.1) && statFails p.1) = true →
      listH st u statFails = []) ∧
    (∀ (st : ServerState) (u : String),
      alGet st.fs (getUserDataDir u) = none →
      ∀ statFails, listH st u statFails = []) ∧
    (∀ (st : ServerState) (u : String) (statFails : String → Bool)
      (fe : FileEntry), fe ∈ listH st u statFails →
      isSidecarName fe.name = false ∧
      ∃ e, (fe.name, e) ∈ (alGet st.fs (getUserDataDir u)).getD [] ∧
        e ≠ Entry.subdir) := by
  refine ⟨?_, ?_, ?_⟩
  · intro st u statFails h
    simp [listH, h]
  · intro st u h statFails
    simp [listH, h]
  · intro st u statFails fe hfe
    unfold listH at hfe
    by_cases hany : ((alGet st.fs (getUserDataDir u)).getD []).any
        (fun p => !(isSidecarName p.1) && statFails p.1) = true
    · rw [if_pos hany] at hfe
      exact absurd hfe (List.not_mem_nil fe)
    · rw [if_neg hany] at hfe
      rw [List.mem_filterMap] at hfe
      obtain ⟨p, hp, hfp⟩ := hfe
      obtain ⟨name, e⟩ := p
      by_cases hsc : isSidecarName name = true
      · rw [if_pos hsc] at hfp
        exact Option.noConfusion hfp
      · rw [if_neg hsc] at hfp
        cases e with
        | subdir => exact Option.noConfusion hfp
        | blob s =>
          obtain rfl := Option.some.inj hfp
          exact ⟨by simpa using hsc, Entry.blob s, hp, by simp⟩
        | meta m =>
          obtain rfl := Option.some.inj hfp
          exact ⟨by simpa using hsc, Entry.meta m, hp, by simp⟩
        | corrupt s =>
          obtain rfl := Option.some.inj hfp
          exact ⟨by simpa using hsc, Entry.corrupt s, hp, by simp⟩

/-- Claim C10 witness: an injected stat failure on a concrete one-file
store yields the empty list, as does a missing namespace directory. -/
theorem C10_list_witness :
    listH stPriv "alice" (fun _ => true) = [] ∧
    listH emptyState "alice" (fun _ => false) = [] :=
  ⟨C10_list.1 stPriv "alice" (fun _ => true) (by decide),
    C10_list.2.1 emptyState "alice" (by decide) (fun _ => false)⟩

end HostNote
